import Mathlib

/-!
Shallow embedding of `src/8puzzle.c` (an A* solver for the 8-puzzle) and
verification of its specification.

Conventions of the embedding:
* C arrays of tiles (`tile board[9]`, tiles are single digits) become
  `List Nat`; reads `b[i]` become `List.getD` and writes become `List.set`.
* C `int` values stay in `Nat`/`Int` as appropriate; the source never
  overflows 32 bits on the data handled here (proved for `hash_board`).
* Functions that can hit a fatal `exit(1)` branch or an out-of-bounds
  access return `Option`/an explicit outcome type, with the error value
  marking exactly the C control path that dies.
* Unbounded C loops (`probe_ht`, `ht_has_key`, `next_prime`, the solver
  loop) receive explicit fuel; exhausting the fuel models divergence of
  the corresponding C loop.
-/

namespace EightPuzzle

/-! ### Constants from the source (`#define` lines) -/

def SIZE : Nat := 9
def ROWS : Nat := 3
def NEIGHBOR_CNT : Nat := 4
def LONGEST_SOL : Nat := 32
def CHILD_CNT : Nat := 4

/-! ### Boards and moves -/

/-- `typedef enum move { NONE, UP, DOWN, LEFT, RIGHT } move;` -/
inductive Move where
  | NONE | UP | DOWN | LEFT | RIGHT
deriving DecidableEq, Repr

/-- `typedef tile board[SIZE];` — row-major list of 9 tiles. -/
abbrev Board := List Nat

/-- A valid board is a permutation of the digits 0..8 (spec §3). -/
def validBoard (b : Board) : Prop := b.Perm (List.range 9)

instance (b : Board) : Decidable (validBoard b) := by
  unfold validBoard; infer_instance

/-- The canonical goal layout `{1, 2, 3, 4, 5, 6, 7, 8, 0}` from `main`. -/
def goal_board : Board := [1, 2, 3, 4, 5, 6, 7, 8, 0]

/-! ### `hash_board` (lines 149–156)

`hash += board[i] * (int) pow(10, i)` for `i = 0..8`.  `pow` returns the
exact double `10^i` for `i ≤ 8`, so the cast is exact. -/

def hash_board (b : Board) : Nat :=
  (List.range SIZE).foldl (fun hash (i : Nat) => hash + b.getD i 0 * 10 ^ i) 0

/-- Horner form of the same sum, used in proofs. -/
def hashHorner : List Nat → Nat
  | [] => 0
  | x :: xs => x + 10 * hashHorner xs

/-! ### `heuristic` (lines 380–391)

The C code computes, for each cell `i`, `row2 = brd[i] / SIZE` and
`col2 = brd[i] % SIZE` with `SIZE = 9` (not `ROWS = 3`), then sums
`abs(row2 - row1) + abs(col2 - col1)`. -/

def heuristic (b : Board) : Nat :=
  (List.range SIZE).foldl
    (fun h (i : Nat) =>
      let row1 : Int := (i : Int) / (ROWS : Int)
      let col1 : Int := (i : Int) % (ROWS : Int)
      let row2 : Int := Int.ofNat (b.getD i 0) / (SIZE : Int)
      let col2 : Int := Int.ofNat (b.getD i 0) % (SIZE : Int)
      h + ((row2 - row1).natAbs + (col2 - col1).natAbs))
    0

/-- Modelled from the spec (§4.2): goal position of value `v` in the
canonical arrangement — ascending 1..8, blank last. -/
def goal_pos (v : Nat) : Nat × Nat :=
  if v = 0 then (2, 2) else ((v - 1) / 3, (v - 1) % 3)

/-- Modelled from the spec (§4.2): the Manhattan-distance sum
`Σ_i manhattan(pos(i), goal_pos(board[i]))`. -/
def heuristic_spec (b : Board) : Nat :=
  (List.range SIZE).foldl
    (fun h (i : Nat) =>
      let p := goal_pos (b.getD i 0)
      h + (((i / 3 : Int) - (p.1 : Int)).natAbs + ((i % 3 : Int) - (p.2 : Int)).natAbs))
    0

/-! ### `find_zero` and `move_board` (lines 350–378) -/

/-- `find_zero` scans for the blank.  The C version `exit(1)`s when no
zero is present; on boards containing a zero (`validBoard`) it returns
its first index, which is what `List.indexOf 0` computes. -/
def find_zero (b : Board) : Nat := b.indexOf 0

/-- The swap at lines 374–376 (`temp`/assign/assign). -/
def swapTiles (b : Board) (i j : Nat) : Board :=
  let temp := b.getD i 0
  (b.set i (b.getD j 0)).set j temp

/-- `move_board` (lines 358–378): `none` models the `return 1`
out-of-bounds branch, `some` the swapped output board. -/
def move_board (b : Board) (row_offset col_offset : Int) : Option Board :=
  let zero_loc := find_zero b
  let zero_row : Int := (zero_loc : Int) / (ROWS : Int)
  let zero_col : Int := (zero_loc : Int) % (ROWS : Int)
  let swap_row := zero_row + row_offset
  let swap_col := zero_col + col_offset
  let swap_loc := swap_col + (ROWS : Int) * swap_row
  if swap_row < 0 ∨ swap_row ≥ (ROWS : Int) ∨ swap_col < 0 ∨ swap_col ≥ (ROWS : Int) then
    none
  else
    some (swapTiles b zero_loc swap_loc.toNat)

/-- `NEIGHBOR_OFFSETS` (line 103). -/
def NEIGHBOR_OFFSETS : List (Int × Int) := [(0, 1), (1, 0), (0, -1), (-1, 0)]

/-- `NEIGHBOR_MOVES` (line 104). -/
def NEIGHBOR_MOVES : List Move := [.RIGHT, .DOWN, .LEFT, .UP]

/-! ### Search nodes (`struct puzzle`, lines 29–35)

A node carries a nullable parent pointer.  We embed the pointer
structure as a tree: `root` is a node with `parent == NULL` as built by
`new_puzzle` (move `NONE`, `g = f = 0`), `child` a node whose fields
were filled in at expansion time (lines 428–432). -/

inductive puzzle where
  | root (brd : Board)
  | child (parent : puzzle) (brd : Board) (mv : Move) (g : Nat) (f : Nat)
deriving DecidableEq, Repr

instance : Inhabited puzzle := ⟨.root []⟩

def puzzle.board : puzzle → Board
  | .root brd => brd
  | .child _ brd _ _ _ => brd

def puzzle.mv : puzzle → Move
  | .root _ => .NONE
  | .child _ _ m _ _ => m

def puzzle.g : puzzle → Nat
  | .root _ => 0
  | .child _ _ _ g _ => g

def puzzle.f : puzzle → Nat
  | .root _ => 0
  | .child _ _ _ _ f => f

/-! ### Priority queue (`struct priority_q`, lines 241–332)

The backing array `min_heap` together with `size` is embedded as a
`List puzzle` of length `size`; `capacity`/`ensure_capacity` only manage
storage and have no observable effect. -/

/-- The three-statement pointer swap used in both sift loops. -/
def heapSwap (h : List puzzle) (i j : Nat) : List puzzle :=
  let temp := h.getD i default
  (h.set i (h.getD j default)).set j temp

/-- Parent index in the 4-ary heap: `(pos - 1) / CHILD_CNT` (lines 272
and 282), which is `0` at `pos = 0` both in C (truncation toward zero)
and in `Nat` subtraction. -/
def parentIdx (i : Nat) : Nat := (i - 1) / CHILD_CNT

/-- The sift-up loop of `push_pq` (lines 271–286).  The C parent index
`(pos - 1) / CHILD_CNT` truncates toward zero, so at `pos = 0` it is `0`,
matching `Nat` subtraction; the loop then stops since `f < f` fails.
The position strictly decreases at every iteration, so any fuel above
the starting position makes the first branch (an artifact of the
encoding, never the C loop's behaviour) unreachable. -/
def siftUpAux (h : List puzzle) (pos : Nat) : Nat → List puzzle
  | 0 => h
  | fuel + 1 =>
    if (h.getD pos default).f < (h.getD (parentIdx pos) default).f then
      siftUpAux (heapSwap h pos (parentIdx pos)) (parentIdx pos) fuel
    else h

def siftUp (h : List puzzle) (pos : Nat) : List puzzle :=
  siftUpAux h pos (pos + 1)

/-- `push_pq` (lines 266–288): store at index `size`, sift up, `size++`. -/
def push_pq (h : List puzzle) (puz : puzzle) : List puzzle :=
  siftUp (h ++ [puz]) h.length

/-- The inner scan of `pop_pq` (lines 308–317) that finds the smallest
of up to `CHILD_CNT` children.  The C `break` on `new_child >= size` is
equivalent to skipping, because the child indices only increase. -/
def minChildIdx (h : List puzzle) (first_child : Nat) : Nat :=
  [1, 2, 3].foldl
    (fun child i =>
      let new_child := first_child + i
      if new_child ≥ h.length then child
      else if (h.getD new_child default).f < (h.getD child default).f then new_child
      else child)
    first_child

theorem minChildIdx_lt (h : List puzzle) (fc : Nat) (hfc : fc < h.length) :
    fc ≤ minChildIdx h fc ∧ minChildIdx h fc < h.length := by
  simp only [minChildIdx, List.foldl]
  split_ifs <;> omega

/-- The sift-down loop of `pop_pq` (lines 300–329), acting on the array
before `size--`, so the moved-up last element is still visible at index
`size - 1` during the sift.  The position strictly increases while
staying below the length, so fuel `h.length` makes the artificial
zero-fuel branch unreachable. -/
def siftDownAux (h : List puzzle) (pos : Nat) : Nat → List puzzle
  | 0 => h
  | fuel + 1 =>
    if CHILD_CNT * pos + 1 ≥ h.length then h
    else
      if (h.getD pos default).f > (h.getD (minChildIdx h (CHILD_CNT * pos + 1)) default).f then
        siftDownAux (heapSwap h pos (minChildIdx h (CHILD_CNT * pos + 1)))
          (minChildIdx h (CHILD_CNT * pos + 1)) fuel
      else h

def siftDown (h : List puzzle) (pos : Nat) : List puzzle :=
  siftDownAux h pos h.length

/-- `pop_pq` (lines 290–332): `none` models the fatal
`"Can't pop an empty min_heap"` branch; otherwise the top element is
extracted, the last element moved up and sifted down, then `size--`. -/
def pop_pq (h : List puzzle) : Option (puzzle × List puzzle) :=
  if h.length = 0 then none
  else
    let top := h.getD 0 default
    let h1 := h.set 0 (h.getD (h.length - 1) default)
    let h2 := siftDown h1 0
    some (top, h2.take (h2.length - 1))

/-! ### Primality helpers (`is_prime`, `next_prime`, lines 218–237)

The C trial-division loop runs `i = 2 .. sqrt(n)` where `sqrt` is the
exact double square root; for the magnitudes reachable here the
comparison `i <= sqrt(n)` holds exactly when `i * i ≤ n`, which is the
form used below (scanning `i = 2 .. n` and ignoring `i` past the square
root keeps the same set of divisors tested). -/

def is_prime (n : Nat) : Bool :=
  ((List.range' 2 (n - 1)).all fun i => decide (n < i * i) || n % i != 0) && decide (1 < n)

/-- The unbounded scan of `next_prime` (lines 231–237), with fuel.
`none` models the C loop running past the given bound. -/
def next_prime_aux : Nat → Nat → Option Nat
  | _, 0 => none
  | i, fuel + 1 => if is_prime i then some i else next_prime_aux (i + 1) fuel

/-- `next_prime n`: Bertrand's postulate guarantees a prime in
`[n, 2n + 2]`, so fuel `n + 3` always suffices and the `getD` default is
never taken (proved in `next_prime_finds`). -/
def next_prime (n : Nat) : Nat := (next_prime_aux n (n + 3)).getD 0

/-! ### Hash table (`struct hash_table`, lines 137–216)

`table` is the backing array of `capacity` int slots (`0` = empty),
`size` the insertion counter.  The load-factor test
`(float) size / (float) capacity > 0.7f` is modelled as the exact
rational comparison `10 * size > 7 * capacity`; with a prime capacity
the two sides are never equal, and at the magnitudes the program
reaches the float comparison agrees with the rational one. -/

structure hash_table where
  table : List Nat
  size : Nat
  capacity : Nat
deriving DecidableEq, Repr

/-- `new_ht` (lines 137–147): capacity `next_prime(10) = 11`, zeroed table. -/
def new_ht : hash_table :=
  { capacity := next_prime 10
    table := List.replicate (next_prime 10) 0
    size := 0 }

/-- `probe` (lines 158–160): linear probing `(h + i) % capacity`. -/
def probe (cap : Nat) (h i : Nat) : Nat := (h + i) % cap

/-- The unbounded probe loop of `probe_ht` (lines 193–202), with fuel.
The out-of-range `getD` default is `1` (an occupied-looking value), so a
degenerate zero-capacity table cannot fake an empty slot; this case is
unreachable.  `none` models the C loop diverging on a full table. -/
def probe_ht_aux (t : List Nat) (key : Nat) : Nat → Nat → Option (List Nat)
  | _, 0 => none
  | i, fuel + 1 =>
    if t.getD (probe t.length key i) 1 = 0 then some (t.set (probe t.length key i) key)
    else probe_ht_aux t key (i + 1) fuel

/-- `probe_ht`: the probe sequence visits every slot within `capacity`
steps, so fuel `t.length` is exact: it succeeds iff the C loop halts. -/
def probe_ht (t : List Nat) (key : Nat) : Option (List Nat) :=
  probe_ht_aux t key 0 t.length

/-- The unbounded lookup loop of `ht_has_key` (lines 204–216), fuelled
like `probe_ht_aux`. -/
def ht_has_key_aux (t : List Nat) (key : Nat) : Nat → Nat → Option Bool
  | _, 0 => none
  | i, fuel + 1 =>
    if t.getD (probe t.length key i) 1 = 0 then some false
    else if t.getD (probe t.length key i) 1 = key then some true
    else ht_has_key_aux t key (i + 1) fuel

/-- `ht_has_key` (lines 204–216): `1`/`0` become `true`/`false`. -/
def ht_has_key (ht : hash_table) (key : Nat) : Option Bool :=
  ht_has_key_aux ht.table key 0 ht.table.length

/-- `rehash` (lines 162–182): new capacity `next_prime(2 * capacity)`,
zeroed table, every nonzero old slot re-inserted in index order. -/
def rehash (ht : hash_table) : Option hash_table :=
  let new_cap := next_prime (ht.capacity * 2)
  let init : Option (List Nat) := some (List.replicate new_cap 0)
  (ht.table.foldl
      (fun acc k => if k ≠ 0 then acc.bind (fun t => probe_ht t k) else acc)
      init).map
    (fun t => { table := t, size := ht.size, capacity := new_cap })

/-- `insert_into_ht` (lines 184–191): maybe rehash, then probe-insert,
then `size++`. -/
def insert_into_ht (ht : hash_table) (key : Nat) : Option hash_table :=
  (if 10 * ht.size > 7 * ht.capacity then rehash ht else some ht).bind
    fun ht1 =>
      (probe_ht ht1.table key).map
        fun t => { table := t, size := ht1.size + 1, capacity := ht1.capacity }

/-! ### `reconstruct_path` (lines 470–482)

The goal node's ancestry is written into `puzzle* path[LONGEST_SOL]`, a
fixed 32-slot stack buffer, by `path[count] = leaf_puz` with no bound
check, then printed from `path[count-1]` down to `path[0]`.  The
embedding returns the printed `(move, board)` sequence in print order
(root first); a chain longer than `LONGEST_SOL` makes the C code write
`path[32]` out of bounds, modelled as `none`. -/

/-- The back-chain of a node, leaf first, as collected by the first loop
of `reconstruct_path`. -/
def chainOf : puzzle → List puzzle
  | .root brd => [.root brd]
  | .child parent brd mv g f => .child parent brd mv g f :: chainOf parent

def reconstruct_path (leaf_puz : puzzle) : Option (List (Move × Board)) :=
  let path := chainOf leaf_puz
  if path.length > LONGEST_SOL then none
  else some (path.reverse.map fun p => (p.mv, p.board))

/-! ### `solve` (lines 393–454)

The search state carries the open-set heap and closed-set table (the
`puzzles` list only tracks allocations for `free` and has no observable
effect).  One `SolveStep` is one iteration of the `while` loop.  The C
loop condition is `open_set->size >= 0`; the embedding keeps it
literally (on the `Int` value of the size), with `loopExited` marking
the never-taken normal exit of the `while`. -/

structure SearchState where
  open_set : List puzzle
  closed_set : hash_table
deriving DecidableEq, Repr

inductive SolveResult where
  /-- The goal hash was popped: `reconstruct_path(current_puz)` runs and
  the loop breaks.  Carries the goal node. -/
  | success (goal_puz : puzzle)
  /-- `pop_pq` was called on an empty queue: the fatal
  `"Can't pop an empty min_heap"` `exit(1)`. -/
  | fatalEmptyPop
  /-- A hash-table probe loop diverged (never happens on reachable
  states). -/
  | htDiverged
  /-- The `while` condition `open_set->size >= 0` evaluated to false and
  the loop exited normally (never happens: the size is nonnegative). -/
  | loopExited (st : SearchState)
  /-- Out of fuel: the C loop is still running after `fuel` iterations. -/
  | outOfFuel (st : SearchState)
deriving DecidableEq, Repr

/-- The neighbor-expansion `for` loop (lines 419–440), iterating over
the offset indices: for each one, build the moved board; skip it if the
move was out of bounds or the board's hash is closed; otherwise push a
child node with `g = g + 1`, `f = g + h`, and the move label.  `none`
propagates a diverging `ht_has_key` probe. -/
def expandLoop (cur : puzzle) (closed : hash_table) :
    List Nat → List puzzle → Option (List puzzle)
  | [], opn => some opn
  | i :: rest, opn =>
    match move_board cur.board (NEIGHBOR_OFFSETS.getD i (0, 0)).1
        (NEIGHBOR_OFFSETS.getD i (0, 0)).2 with
    | none => expandLoop cur closed rest opn
    | some neighbor_board =>
      match ht_has_key closed (hash_board neighbor_board) with
      | none => none
      | some true => expandLoop cur closed rest opn
      | some false =>
        expandLoop cur closed rest
          (push_pq opn
            (puzzle.child cur neighbor_board (NEIGHBOR_MOVES.getD i .NONE)
              (cur.g + 1) (cur.g + 1 + heuristic neighbor_board)))

def expandNeighbors (cur : puzzle) (closed : hash_table) (opn : List puzzle) :
    Option (List puzzle) :=
  expandLoop cur closed (List.range NEIGHBOR_CNT) opn

/-- One iteration of the `while` loop of `solve` (lines 405–441). -/
def solve_loop (goal_hash : Nat) (st : SearchState) : Nat → SolveResult
  | 0 => .outOfFuel st
  | fuel + 1 =>
    if 0 ≤ (st.open_set.length : Int) then
      match pop_pq st.open_set with
      | none => .fatalEmptyPop
      | some (current_puz, opn) =>
        match insert_into_ht st.closed_set (hash_board current_puz.board) with
        | none => .htDiverged
        | some closed =>
          if hash_board current_puz.board = goal_hash then .success current_puz
          else
            match expandNeighbors current_puz closed opn with
            | none => .htDiverged
            | some opn2 => solve_loop goal_hash ⟨opn2, closed⟩ fuel
    else .loopExited st

/-- `solve` (lines 393–454): root node from the initial board, pushed
onto a fresh open set, then the loop. -/
def solve (initial_brd goal_brd : Board) (fuel : Nat) : SolveResult :=
  solve_loop (hash_board goal_brd)
    ⟨push_pq [] (puzzle.root initial_brd), new_ht⟩ fuel

/-! ### `parse_board` (lines 484–500) and `main` (lines 502–526) -/

inductive ParseResult where
  /-- At least 9 digits were read; the board array after the loop. -/
  | ok (brd : Board)
  /-- A 10th digit arrived: the loop executes `brd[count] = symbol` with
  `count = 9`, writing past the 9-byte `board` array — out of bounds. -/
  | boardOverflow
  /-- Fewer than 9 digits: `"An input board's size must be 9."`,
  `exit(1)`. -/
  | tooFewDigits
deriving DecidableEq, Repr

/-- The `fgetc` loop of `parse_board`: every digit character is stored
at index `count` (unchecked in C) and bumps `count`; other characters
are skipped; EOF ends the loop. -/
def parse_go (brd : Board) (count : Nat) : List Char → ParseResult
  | [] => if count < 9 then .tooFewDigits else .ok brd
  | c :: cs =>
    if c.isDigit then
      if count ≥ 9 then .boardOverflow
      else parse_go (brd.set count (c.toNat - '0'.toNat)) (count + 1) cs
    else parse_go brd count cs

/-- `parse_board` applied to the file's characters, with the
all-zero initial board `board initial_brd = {0}` from `main`. -/
def parse_board (content : List Char) : ParseResult :=
  parse_go (List.replicate 9 0) 0 content

inductive MainResult where
  /-- `argc <= 1`: `"First argument must be input file."`, `return 1`. -/
  | usageError
  /-- `fopen` returned `NULL` — `main` never checks, and `parse_board`
  immediately calls `fgetc(NULL)`: undefined behaviour, no diagnostic,
  no controlled exit. -/
  | fopenNullUB
  /-- `parse_board` wrote past the 9-byte board array. -/
  | parseOverflow
  /-- `parse_board` hit its fewer-than-9-digits fatal exit. -/
  | parseTooFew
  /-- `main` reaches `solve(initial_brd, goal_brd)` with this board. -/
  | runsSolve (initial : Board)
deriving DecidableEq, Repr

/-- `main` (lines 502–526).  `args` is `argv` without the program name;
`file` is the opened file's character content, or `none` when the file
cannot be opened (`fopen` returns `NULL`). -/
def main_embed (args : List String) (file : Option (List Char)) : MainResult :=
  match args with
  | [] => .usageError
  | _ :: _ =>
    match file with
    | none => .fopenNullUB
    | some content =>
      match parse_board content with
      | .ok brd => .runsSolve brd
      | .boardOverflow => .parseOverflow
      | .tooFewDigits => .parseTooFew

/-- A straight parent chain of `n + 1` nodes ending in a root, used to
exercise `reconstruct_path` on solutions of a given length. -/
def deepChain : Nat → puzzle
  | 0 => .root goal_board
  | n + 1 => .child (deepChain n) goal_board .UP (n + 1) (n + 1)

/-!
## Verification predicates
-/

/-- The heap-order property of the 4-ary min-heap: every non-root entry
is at least its parent under `f`. -/
def heapInv (h : List puzzle) : Prop :=
  ∀ i, 0 < i → i < h.length → (h.getD (parentIdx i) default).f ≤ (h.getD i default).f

/-- Intermediate state of the sift-up loop: heap order holds everywhere
except possibly on the edge into `pos`, and the grandparent of `pos`
already dominates the children of `pos`. -/
def UpInv (h : List puzzle) (pos : Nat) : Prop :=
  (∀ i, 0 < i → i < h.length → i ≠ pos →
    (h.getD (parentIdx i) default).f ≤ (h.getD i default).f) ∧
  (∀ c, c < h.length → parentIdx c = pos → c ≠ pos → 0 < pos →
    (h.getD (parentIdx pos) default).f ≤ (h.getD c default).f)

/-- Intermediate state of the sift-down loop: heap order holds
everywhere except possibly on the edges from `pos` to its children, and
the parent of `pos` already dominates the children of `pos`. -/
def DownInv (h : List puzzle) (pos : Nat) : Prop :=
  (∀ i, 0 < i → i < h.length → parentIdx i ≠ pos →
    (h.getD (parentIdx i) default).f ≤ (h.getD i default).f) ∧
  (∀ i, 0 < i → i < h.length → parentIdx i = pos → 0 < pos →
    (h.getD (parentIdx pos) default).f ≤ (h.getD i default).f)

/-- Priority-queue states reachable from a fresh empty queue by
`push_pq` and `pop_pq`. -/
inductive ReachablePQ : List puzzle → Prop where
  | nil : ReachablePQ []
  | push (h : List puzzle) (p : puzzle) : ReachablePQ h → ReachablePQ (push_pq h p)
  | pop (h : List puzzle) (t : puzzle) (h2 : List puzzle) :
      ReachablePQ h → pop_pq h = some (t, h2) → ReachablePQ h2

/-- Run a sequence of operations (`some p` = `push_pq p`, `none` =
`pop_pq`) on the open set, recording the `f` score of every popped
node in order.  Fails only if a pop hits the empty queue. -/
def runOps : List (Option puzzle) → List puzzle → Option (List puzzle × List Nat)
  | [], h => some (h, [])
  | some p :: ops, h => runOps ops (push_pq h p)
  | none :: ops, h =>
    (pop_pq h).bind fun th =>
      (runOps ops th.2).map fun hfs => (hfs.1, th.1.f :: hfs.2)

/-- Build a closed set by inserting the given keys in order into a
fresh `new_ht`. -/
def buildHt (ks : List Nat) : Option hash_table :=
  ks.foldl (fun acc k => acc.bind (fun ht => insert_into_ht ht k)) (some new_ht)

/-- Number of occupied (nonzero) slots of a backing array. -/
def occupancy (t : List Nat) : Nat := (t.filter (fun k => k != 0)).length

/-- Every stored key sits at the end of a fully-occupied linear-probe
chain starting at its home slot — the invariant that makes
`ht_has_key`'s probe-to-first-empty-slot lookup correct. -/
def chainWF (t : List Nat) : Prop :=
  ∀ p, p < t.length → t.getD p 0 ≠ 0 →
    ∃ i, i < t.length ∧ p = probe t.length (t.getD p 0) i ∧
      ∀ j, j < i → t.getD (probe t.length (t.getD p 0) j) 0 ≠ 0

/-- The hash-table state invariant maintained by every operation. -/
def htWF (ht : hash_table) : Prop :=
  ht.capacity = ht.table.length ∧
  Nat.Prime ht.capacity ∧
  11 ≤ ht.capacity ∧
  occupancy ht.table ≤ ht.size ∧
  10 * ht.size ≤ 7 * ht.capacity + 10 ∧
  chainWF ht.table

/-- The table offsets that `solve` uses for each move label (lines
103–104 pair `\x7b0,1\x7d` with `RIGHT`, `\x7b1,0\x7d` with `DOWN`,
`\x7b0,-1\x7d` with `LEFT` and `\x7b-1,0\x7d` with `UP`). -/
def offsets_of : Move → Int × Int
  | .RIGHT => (0, 1)
  | .DOWN => (1, 0)
  | .LEFT => (0, -1)
  | .UP => (-1, 0)
  | .NONE => (0, 0)

/-- Replay a move sequence from a board, collecting the boards produced
step by step. -/
def replayMoves (b : Board) : List Move → Option (List Board)
  | [] => some []
  | mv :: ms =>
    (move_board b (offsets_of mv).1 (offsets_of mv).2).bind fun b2 =>
      (replayMoves b2 ms).map fun bs => b2 :: bs

/-- Structural well-formedness of a search node with respect to the
initial board: the back-chain ends at the root node holding the initial
board, and every child was produced from its parent by one of the four
neighbor moves, with `g` counting the moves (exactly how `solve` builds
nodes at lines 428–432). -/
def nodeWF (initial : Board) : puzzle → Prop
  | .root brd => brd = initial
  | .child parent brd mv g _ =>
    nodeWF initial parent ∧ g = parent.g + 1 ∧
    ∃ i, i < NEIGHBOR_CNT ∧ mv = NEIGHBOR_MOVES.getD i .NONE ∧
      move_board parent.board (NEIGHBOR_OFFSETS.getD i (0, 0)).1
        (NEIGHBOR_OFFSETS.getD i (0, 0)).2 = some brd

/-!
## Theorems
-/

/-! ### List access helpers -/

theorem getD_eq_getElem {α : Type} [Inhabited α] (l : List α) (i : Nat)
    (h : i < l.length) : l.getD i default = l[i] := by
  simp [List.getD_eq_getElem?_getD, List.getElem?_eq_getElem h]

theorem getD_set_self {α : Type} [Inhabited α] (l : List α) (i : Nat) (x : α)
    (h : i < l.length) : (l.set i x).getD i default = x := by
  rw [getD_eq_getElem _ _ (by simpa using h)]
  simp [List.getElem_set, h]

theorem getD_set_ne {α : Type} [Inhabited α] (l : List α) (i j : Nat) (x : α)
    (hne : i ≠ j) : (l.set i x).getD j default = l.getD j default := by
  by_cases hj : j < l.length
  · rw [getD_eq_getElem _ _ (by simpa using hj), getD_eq_getElem _ _ hj]
    simp [List.getElem_set, hne]
  · have h1 : (l.set i x)[j]? = none := List.getElem?_eq_none (by simp; omega)
    have h2 : l[j]? = none := List.getElem?_eq_none (by omega)
    rw [List.getD_eq_getElem?_getD, List.getD_eq_getElem?_getD, h1, h2]

theorem getD_mem {α : Type} [Inhabited α] (l : List α) (i : Nat)
    (h : i < l.length) : l.getD i default ∈ l := by
  rw [getD_eq_getElem _ _ h]
  exact List.getElem_mem h

theorem getD_take {α : Type} [Inhabited α] (l : List α) (n i : Nat)
    (h : i < n) : (l.take n).getD i default = l.getD i default := by
  by_cases hi : i < l.length
  · rw [getD_eq_getElem _ _ (by simp; omega), getD_eq_getElem _ _ hi]
    simp [List.getElem_take]
  · rw [List.getD_eq_getElem?_getD, List.getD_eq_getElem?_getD,
      List.getElem?_eq_none (by simp; omega), List.getElem?_eq_none (by omega)]

/-! ### `heapSwap` access and permutation lemmas -/

theorem heapSwap_length (h : List puzzle) (i j : Nat) :
    (heapSwap h i j).length = h.length := by
  simp [heapSwap]

theorem heapSwap_getD_snd (h : List puzzle) (i j : Nat) (hj : j < h.length) :
    (heapSwap h i j).getD j default = h.getD i default := by
  unfold heapSwap
  exact getD_set_self _ _ _ (by simpa using hj)

theorem heapSwap_getD_fst (h : List puzzle) (i j : Nat) (hi : i < h.length)
    (hne : i ≠ j) : (heapSwap h i j).getD i default = h.getD j default := by
  unfold heapSwap
  rw [getD_set_ne _ _ _ _ (fun e => hne e.symm), getD_set_self _ _ _ hi]

theorem heapSwap_getD_other (h : List puzzle) (i j k : Nat) (h1 : k ≠ i)
    (h2 : k ≠ j) : (heapSwap h i j).getD k default = h.getD k default := by
  unfold heapSwap
  rw [getD_set_ne _ _ _ _ (fun e => h2 e.symm), getD_set_ne _ _ _ _ (fun e => h1 e.symm)]

theorem cons_set_perm {α : Type} (t : List α) (m : Nat) (x : α) (hm : m < t.length) :
    List.Perm (t[m] :: t.set m x) (x :: t) := by
  induction t generalizing m with
  | nil => simp at hm
  | cons y s ih =>
    cases m with
    | zero => simpa using List.Perm.swap x y s
    | succ k =>
      have hk : k < s.length := by simpa using hm
      have p1 : List.Perm (s[k] :: y :: s.set k x) (y :: s[k] :: s.set k x) :=
        List.Perm.swap y (s[k]) (s.set k x)
      have p2 : List.Perm (y :: s[k] :: s.set k x) (y :: x :: s) :=
        List.Perm.cons y (ih k hk)
      have p3 : List.Perm (y :: x :: s) (x :: y :: s) := List.Perm.swap x y s
      simpa using (p1.trans p2).trans p3

theorem set_set_perm {α : Type} (l : List α) (i j : Nat) (hi : i < l.length)
    (hj : j < l.length) : List.Perm ((l.set i l[j]).set j l[i]) l := by
  induction l generalizing i j with
  | nil => simp at hi
  | cons x t ih =>
    cases i with
    | zero =>
      cases j with
      | zero => simp
      | succ m =>
        have hm : m < t.length := by simpa using hj
        simpa using cons_set_perm t m x hm
    | succ n =>
      cases j with
      | zero =>
        have hn : n < t.length := by simpa using hi
        simpa using cons_set_perm t n x hn
      | succ m =>
        have ihp := ih n m (by simpa using hi) (by simpa using hj)
        simpa using List.Perm.cons x ihp

theorem heapSwap_perm (h : List puzzle) (i j : Nat) (hi : i < h.length)
    (hj : j < h.length) : List.Perm (heapSwap h i j) h := by
  unfold heapSwap
  rw [getD_eq_getElem _ _ hj, getD_eq_getElem _ _ hi]
  exact set_set_perm h i j hi hj

/-! ### Sift-up correctness -/

theorem parentIdx_lt {i : Nat} (hi : 0 < i) : parentIdx i < i := by
  simp only [parentIdx, CHILD_CNT]
  omega

theorem parentIdx_zero : parentIdx 0 = 0 := by
  simp [parentIdx]

theorem pos_lt_of_parentIdx_eq {c pos : Nat} (h : parentIdx c = pos) (hc : c ≠ 0) :
    pos < c := by
  simp only [parentIdx, CHILD_CNT] at h
  omega

theorem siftUpAux_length (fuel : Nat) : ∀ (h : List puzzle) (pos : Nat),
    (siftUpAux h pos fuel).length = h.length := by
  induction fuel with
  | zero => intro h pos; rfl
  | succ n ih =>
    intro h pos
    rw [siftUpAux]
    split
    · rw [ih, heapSwap_length]
    · rfl

theorem siftUpAux_perm (fuel : Nat) : ∀ (h : List puzzle) (pos : Nat),
    pos < h.length → List.Perm (siftUpAux h pos fuel) h := by
  induction fuel with
  | zero => intro h pos _; exact .refl h
  | succ n ih =>
    intro h pos hlen
    rw [siftUpAux]
    split
    · next hc =>
      have hpos0 : pos ≠ 0 := by
        rintro rfl
        rw [parentIdx_zero] at hc
        exact absurd hc (lt_irrefl _)
      have hpp : parentIdx pos < pos := parentIdx_lt (Nat.pos_of_ne_zero hpos0)
      have hperm := ih (heapSwap h pos (parentIdx pos)) (parentIdx pos)
        (by rw [heapSwap_length]; omega)
      exact hperm.trans (heapSwap_perm h pos (parentIdx pos) hlen (by omega))
    · exact .refl h

/-- One sift-up swap turns an `UpInv` state at `pos` into an `UpInv`
state at `parentIdx pos`. -/
theorem upInv_step (h : List puzzle) (pos : Nat) (hlen : pos < h.length)
    (hpos0 : pos ≠ 0) (hinv : UpInv h pos)
    (hc : (h.getD pos default).f < (h.getD (parentIdx pos) default).f) :
    UpInv (heapSwap h pos (parentIdx pos)) (parentIdx pos) := by
  obtain ⟨h1, h2⟩ := hinv
  have hpp : parentIdx pos < pos := parentIdx_lt (Nat.pos_of_ne_zero hpos0)
  have hplen : parentIdx pos < h.length := by omega
  have hgp : (heapSwap h pos (parentIdx pos)).getD (parentIdx pos) default =
      h.getD pos default := heapSwap_getD_snd h pos (parentIdx pos) hplen
  have hgpos : (heapSwap h pos (parentIdx pos)).getD pos default =
      h.getD (parentIdx pos) default :=
    heapSwap_getD_fst h pos (parentIdx pos) hlen (by omega)
  have hother : ∀ k, k ≠ pos → k ≠ parentIdx pos →
      (heapSwap h pos (parentIdx pos)).getD k default = h.getD k default :=
    fun k hk1 hk2 => heapSwap_getD_other h pos (parentIdx pos) k hk1 hk2
  have hswlen : (heapSwap h pos (parentIdx pos)).length = h.length :=
    heapSwap_length h pos (parentIdx pos)
  constructor
  · intro i hi0 hilen hip
    rw [hswlen] at hilen
    by_cases hipos : i = pos
    · subst hipos
      rw [hgp, hgpos]
      exact le_of_lt hc
    · by_cases hpi : parentIdx i = pos
      · rw [hother i hipos hip, hpi, hgpos]
        have hi0' : i ≠ 0 := by
          intro e; rw [e, parentIdx_zero] at hpi; omega
        exact h2 i hilen hpi hipos (Nat.pos_of_ne_zero hpos0)
      · by_cases hpi2 : parentIdx i = parentIdx pos
        · rw [hother i hipos hip, hpi2, hgp]
          have := h1 i hi0 hilen hipos
          rw [hpi2] at this
          omega
        · rw [hother i hipos hip, hother (parentIdx i) hpi hpi2]
          exact h1 i hi0 hilen hipos
  · intro c hclen hcp hcne hp0
    rw [hswlen] at hclen
    have hppp : parentIdx (parentIdx pos) < parentIdx pos := parentIdx_lt hp0
    have e1 : (heapSwap h pos (parentIdx pos)).getD (parentIdx (parentIdx pos)) default =
        h.getD (parentIdx (parentIdx pos)) default := by
      exact hother _ (by omega) (by omega)
    rw [e1]
    have hedge : (h.getD (parentIdx (parentIdx pos)) default).f ≤
        (h.getD (parentIdx pos) default).f :=
      h1 (parentIdx pos) hp0 hplen (by omega)
    by_cases hcpos : c = pos
    · subst hcpos
      rw [hgpos]
      exact hedge
    · rw [hother c hcpos hcne]
      have hc0 : c ≠ 0 := by
        intro e; rw [e, parentIdx_zero] at hcp; omega
      have := h1 c (Nat.pos_of_ne_zero hc0) hclen hcpos
      rw [hcp] at this
      omega

/-- When the sift-up loop stops, the whole array is heap-ordered. -/
theorem heapInv_of_upInv_stop (h : List puzzle) (pos : Nat) (hinv : UpInv h pos)
    (hc : ¬ (h.getD pos default).f < (h.getD (parentIdx pos) default).f) :
    heapInv h := by
  intro i hi0 hilen
  by_cases hip : i = pos
  · subst hip
    omega
  · exact hinv.1 i hi0 hilen hip

theorem siftUpAux_heapInv (fuel : Nat) : ∀ (h : List puzzle) (pos : Nat),
    pos < h.length → pos < fuel → UpInv h pos → heapInv (siftUpAux h pos fuel) := by
  induction fuel with
  | zero => intro h pos _ hf; omega
  | succ n ih =>
    intro h pos hlen hf hinv
    rw [siftUpAux]
    split
    · next hc =>
      have hpos0 : pos ≠ 0 := by
        rintro rfl
        rw [parentIdx_zero] at hc
        exact absurd hc (lt_irrefl _)
      have hpp : parentIdx pos < pos := parentIdx_lt (Nat.pos_of_ne_zero hpos0)
      exact ih _ _ (by rw [heapSwap_length]; omega) (by omega)
        (upInv_step h pos hlen hpos0 hinv hc)
    · next hc => exact heapInv_of_upInv_stop h pos hinv hc

/-! ### `push_pq` specification -/

theorem getD_append {α : Type} [Inhabited α] (l1 l2 : List α) (i : Nat)
    (h : i < l1.length) : (l1 ++ l2).getD i default = l1.getD i default := by
  rw [getD_eq_getElem _ _ (by simp; omega), getD_eq_getElem _ _ h]
  exact List.getElem_append_left h

theorem push_pq_perm (h : List puzzle) (p : puzzle) :
    List.Perm (push_pq h p) (p :: h) := by
  unfold push_pq siftUp
  exact (siftUpAux_perm _ _ _ (by simp)).trans (List.perm_append_singleton p h)

theorem push_pq_length (h : List puzzle) (p : puzzle) :
    (push_pq h p).length = h.length + 1 := by
  unfold push_pq siftUp
  rw [siftUpAux_length]
  simp

theorem push_pq_heapInv (h : List puzzle) (p : puzzle) (hinv : heapInv h) :
    heapInv (push_pq h p) := by
  unfold push_pq siftUp
  apply siftUpAux_heapInv _ _ _ (by simp) (by omega)
  constructor
  · intro i hi0 hilen hip
    simp only [List.length_append, List.length_cons, List.length_nil] at hilen
    have hi : i < h.length := by omega
    have hpi : parentIdx i < h.length := lt_trans (parentIdx_lt hi0) hi
    rw [getD_append _ _ _ hi, getD_append _ _ _ hpi]
    exact hinv i hi0 hi
  · intro c hclen hcp hcne _
    simp only [List.length_append, List.length_cons, List.length_nil] at hclen
    have hc0 : c ≠ 0 := by
      intro e
      rw [e, parentIdx_zero] at hcp
      omega
    have := pos_lt_of_parentIdx_eq hcp hc0
    omega

/-! ### `pop_pq` specification -/

theorem minChildIdx_min (h : List puzzle) (fc : Nat) (hfc : fc < h.length) (k : Nat)
    (h1 : fc ≤ k) (h2 : k ≤ fc + 3) (h3 : k < h.length) :
    (h.getD (minChildIdx h fc) default).f ≤ (h.getD k default).f := by
  have hk : k = fc ∨ k = fc + 1 ∨ k = fc + 2 ∨ k = fc + 3 := by omega
  simp only [minChildIdx, List.foldl]
  rcases hk with rfl | rfl | rfl | rfl <;> split_ifs <;> omega

theorem parentIdx_of_child {pos c : Nat} (h1 : CHILD_CNT * pos + 1 ≤ c)
    (h2 : c ≤ CHILD_CNT * pos + 4) : parentIdx c = pos := by
  simp only [parentIdx, CHILD_CNT] at *
  omega

theorem child_range_of_parentIdx {pos c : Nat} (hc : parentIdx c = pos) (h0 : c ≠ 0) :
    CHILD_CNT * pos + 1 ≤ c ∧ c ≤ CHILD_CNT * pos + 4 := by
  simp only [parentIdx, CHILD_CNT] at *
  omega

/-- When the bound check stops the sift-down loop (no child in range),
the array is fully heap-ordered. -/
theorem heapInv_of_downInv_nochildren (h : List puzzle) (pos : Nat)
    (hb : CHILD_CNT * pos + 1 ≥ h.length) (hinv : DownInv h pos) : heapInv h := by
  intro i hi0 hilen
  by_cases hpi : parentIdx i = pos
  · have := (child_range_of_parentIdx hpi (by omega)).1
    omega
  · exact hinv.1 i hi0 hilen hpi

/-- When the comparison stops the sift-down loop, the array is fully
heap-ordered. -/
theorem heapInv_of_downInv_stop (h : List puzzle) (pos : Nat)
    (hb : CHILD_CNT * pos + 1 < h.length) (hinv : DownInv h pos)
    (hc : ¬ (h.getD pos default).f >
      (h.getD (minChildIdx h (CHILD_CNT * pos + 1)) default).f) : heapInv h := by
  intro i hi0 hilen
  by_cases hpi : parentIdx i = pos
  · obtain ⟨hr1, hr2⟩ := child_range_of_parentIdx hpi (by omega)
    have hmin := minChildIdx_min h (CHILD_CNT * pos + 1) hb i hr1 (by omega) hilen
    rw [hpi]
    omega
  · exact hinv.1 i hi0 hilen hpi

theorem minChildIdx_range (h : List puzzle) (fc : Nat) :
    fc ≤ minChildIdx h fc ∧ minChildIdx h fc ≤ fc + 3 := by
  simp only [minChildIdx, List.foldl]
  split_ifs <;> omega

/-- One sift-down swap turns a `DownInv` state at `pos` with the
last-slot alias intact into a `DownInv` state at the chosen child `m`,
keeping the alias.  `m` is characterized by the properties that
`minChildIdx` provides. -/
theorem downInv_step (h : List puzzle) (pos m : Nat) (hlen : pos < h.length)
    (hb : CHILD_CNT * pos + 1 < h.length) (hm2 : m < h.length)
    (hmr1 : CHILD_CNT * pos + 1 ≤ m) (hmr2 : m ≤ CHILD_CNT * pos + 4)
    (hmin : ∀ k, CHILD_CNT * pos + 1 ≤ k → k ≤ CHILD_CNT * pos + 4 → k < h.length →
      (h.getD m default).f ≤ (h.getD k default).f)
    (phant : h.getD (h.length - 1) default = h.getD pos default)
    (hinv : DownInv h pos)
    (hc : (h.getD pos default).f > (h.getD m default).f) :
    m ≠ h.length - 1 ∧
    DownInv (heapSwap h pos m) m ∧
    (heapSwap h pos m).getD ((heapSwap h pos m).length - 1) default =
      (heapSwap h pos m).getD m default := by
  obtain ⟨d1, d2⟩ := hinv
  have hparm : parentIdx m = pos := parentIdx_of_child hmr1 hmr2
  have hposm : pos < m := by
    simp only [CHILD_CNT] at hmr1
    omega
  have hlast : m ≠ h.length - 1 := by
    intro e
    rw [e, phant] at hc
    exact absurd hc (lt_irrefl _)
  have hposlast : pos ≠ h.length - 1 := by
    intro e
    omega
  have hswlen : (heapSwap h pos m).length = h.length := heapSwap_length h pos m
  have hgm : (heapSwap h pos m).getD m default = h.getD pos default :=
    heapSwap_getD_snd h pos m hm2
  have hgpos : (heapSwap h pos m).getD pos default = h.getD m default :=
    heapSwap_getD_fst h pos m hlen (by omega)
  have hother : ∀ k, k ≠ pos → k ≠ m →
      (heapSwap h pos m).getD k default = h.getD k default :=
    fun k hk1 hk2 => heapSwap_getD_other h pos m k hk1 hk2
  refine ⟨hlast, ⟨?_, ?_⟩, ?_⟩
  · intro i hi0 hilen him
    rw [hswlen] at hilen
    by_cases him2 : i = m
    · subst him2
      rw [hparm, hgpos, hgm]
      omega
    · by_cases hipos : i = pos
      · subst hipos
        have hpp : parentIdx i < i := parentIdx_lt hi0
        rw [hother (parentIdx i) (by omega) (by omega), hgpos]
        exact d2 m (by omega) hm2 hparm hi0
      · by_cases hpi : parentIdx i = pos
        · rw [hother i hipos him2, hpi, hgpos]
          obtain ⟨hr1, hr2⟩ := child_range_of_parentIdx hpi (by omega)
          exact hmin i hr1 hr2 hilen
        · rw [hother i hipos him2, hother (parentIdx i) hpi him]
          exact d1 i hi0 hilen hpi
  · intro i hi0 hilen hpim hm0
    rw [hswlen] at hilen
    rw [hparm]
    have hmi : m < i := pos_lt_of_parentIdx_eq hpim (by omega)
    rw [hother i (by omega) (by omega), hgpos]
    have hne : parentIdx i ≠ pos := by rw [hpim]; omega
    have := d1 i hi0 hilen hne
    rw [hpim] at this
    exact this
  · rw [hswlen, hgm, hother (h.length - 1) (fun e => hposlast e.symm)
      (fun e => hlast e.symm), phant]

theorem siftDownAux_spec (fuel : Nat) : ∀ (h : List puzzle) (pos : Nat),
    pos < h.length → h.length ≤ fuel + pos →
    h.getD (h.length - 1) default = h.getD pos default →
    DownInv h pos →
    heapInv (siftDownAux h pos fuel) ∧
    List.Perm (siftDownAux h pos fuel) h ∧
    (siftDownAux h pos fuel).getD (h.length - 1) default =
      h.getD (h.length - 1) default ∧
    (siftDownAux h pos fuel).length = h.length := by
  induction fuel with
  | zero => intro h pos h1 h2; omega
  | succ n ih =>
    intro h pos hlen hfuel phant hinv
    rw [siftDownAux]
    split
    · next hge =>
      exact ⟨heapInv_of_downInv_nochildren h pos hge hinv, .refl h, rfl, rfl⟩
    · next hge =>
      have hb : CHILD_CNT * pos + 1 < h.length := by omega
      split
      · next hc =>
        obtain ⟨hm1, hm2⟩ := minChildIdx_lt h (CHILD_CNT * pos + 1) hb
        obtain ⟨hr1, hr2⟩ := minChildIdx_range h (CHILD_CNT * pos + 1)
        obtain ⟨hlast, hinv2, phant2⟩ :=
          downInv_step h pos (minChildIdx h (CHILD_CNT * pos + 1)) hlen hb hm2 hm1
            (by omega)
            (fun k a b c =>
              minChildIdx_min h (CHILD_CNT * pos + 1) hb k a (by omega) c)
            phant hinv hc
        have hswlen := heapSwap_length h pos (minChildIdx h (CHILD_CNT * pos + 1))
        have hposm : pos < minChildIdx h (CHILD_CNT * pos + 1) := by
          have hcp : pos ≤ CHILD_CNT * pos :=
            Nat.le_mul_of_pos_left pos (by decide)
          omega
        obtain ⟨cinv, cperm, clast, clen⟩ :=
          ih (heapSwap h pos (minChildIdx h (CHILD_CNT * pos + 1)))
            (minChildIdx h (CHILD_CNT * pos + 1)) (by omega) (by omega)
            (by rw [hswlen] at phant2 ⊢; exact phant2) hinv2
        refine ⟨cinv, cperm.trans (heapSwap_perm h pos _ hlen hm2), ?_, by omega⟩
        rw [hswlen] at clast
        rw [clast]
        have hposlast : pos ≠ h.length - 1 := by omega
        exact heapSwap_getD_other h pos _ _ (fun e => hposlast e.symm)
          (fun e => hlast e.symm)
      · next hc =>
        exact ⟨heapInv_of_downInv_stop h pos hb hinv hc, .refl h, rfl, rfl⟩

theorem pop_pq_spec (h : List puzzle) (hinv : heapInv h) (hne : h ≠ []) :
    ∃ h2, pop_pq h = some (h.getD 0 default, h2) ∧ heapInv h2 ∧
      List.Perm (h.getD 0 default :: h2) h ∧ h2.length = h.length - 1 := by
  have hn : 0 < h.length := List.length_pos.2 hne
  have hblen : (h.set 0 (h.getD (h.length - 1) default)).length = h.length := by simp
  have hb0 : (h.set 0 (h.getD (h.length - 1) default)).getD 0 default =
      h.getD (h.length - 1) default := getD_set_self h 0 _ hn
  have hbphant : (h.set 0 (h.getD (h.length - 1) default)).getD
      ((h.set 0 (h.getD (h.length - 1) default)).length - 1) default =
      (h.set 0 (h.getD (h.length - 1) default)).getD 0 default := by
    rw [hblen]
    rcases Nat.eq_zero_or_pos (h.length - 1) with he | hpos
    · rw [he]
    · rw [hb0, getD_set_ne h 0 (h.length - 1) _ (by omega)]
  have hbinv : DownInv (h.set 0 (h.getD (h.length - 1) default)) 0 := by
    constructor
    · intro i hi0 hilen hpi
      rw [hblen] at hilen
      rw [getD_set_ne h 0 i _ (by omega), getD_set_ne h 0 (parentIdx i) _ (by omega)]
      exact hinv i hi0 hilen
    · intro i _ _ _ hpos
      omega
  obtain ⟨rinv, rperm, rlast, rlen⟩ :=
    siftDownAux_spec (h.set 0 (h.getD (h.length - 1) default)).length
      (h.set 0 (h.getD (h.length - 1) default)) 0 (by omega) (by omega) hbphant hbinv
  refine ⟨(siftDownAux (h.set 0 (h.getD (h.length - 1) default)) 0
      (h.set 0 (h.getD (h.length - 1) default)).length).take
      ((siftDownAux (h.set 0 (h.getD (h.length - 1) default)) 0
        (h.set 0 (h.getD (h.length - 1) default)).length).length - 1), ?_, ?_, ?_, ?_⟩
  · unfold pop_pq siftDown
    rw [if_neg (by omega)]
  · intro i hi0 hilen
    have hrl : (siftDownAux (h.set 0 (h.getD (h.length - 1) default)) 0
        (h.set 0 (h.getD (h.length - 1) default)).length).length = h.length := by
      rw [rlen, hblen]
    simp only [List.length_take, hrl] at hilen
    have hi2 : i < h.length - 1 := by omega
    have hp := parentIdx_lt hi0
    rw [getD_take _ _ _ (by rw [hrl]; omega), getD_take _ _ _ (by rw [hrl]; omega)]
    exact rinv i hi0 (by rw [hrl]; omega)
  · generalize hr : siftDownAux (h.set 0 (h.getD (h.length - 1) default)) 0
      (h.set 0 (h.getD (h.length - 1) default)).length = r at rperm rlast rlen ⊢
    have hrlen : r.length = h.length := by rw [rlen, hblen]
    have hlasteq : r.getD (r.length - 1) default = h.getD (h.length - 1) default := by
      have h1 := rlast
      rw [hblen] at h1
      have h2 := hbphant
      rw [hblen] at h2
      rw [hrlen, h1, h2, hb0]
    have hsplit : r.take (r.length - 1) ++ r.drop (r.length - 1) = r :=
      List.take_append_drop _ r
    have hdrop : r.drop (r.length - 1) = [r.getD (r.length - 1) default] := by
      rw [getD_eq_getElem _ _ (by omega), List.drop_eq_getElem_cons (by omega)]
      have he : r.length - 1 + 1 = r.length := by omega
      rw [he, List.drop_length]
    have hperm1 : List.Perm (r.take (r.length - 1) ++ [r.getD (r.length - 1) default])
        (h.set 0 (h.getD (h.length - 1) default)) := by
      rw [← hdrop, hsplit]
      exact rperm
    rw [hlasteq] at hperm1
    rcases h with _ | ⟨hd, tl⟩
    · exact absurd rfl hne
    · have hsetform : (hd :: tl).set 0 ((hd :: tl).getD ((hd :: tl).length - 1) default) =
          (hd :: tl).getD ((hd :: tl).length - 1) default :: tl := rfl
      rw [hsetform] at hperm1
      have hperm2 := (List.perm_append_singleton _ _).symm.trans hperm1
      have hperm3 := hperm2.cons_inv
      exact List.Perm.cons _ hperm3
  · have hrl : (siftDownAux (h.set 0 (h.getD (h.length - 1) default)) 0
        (h.set 0 (h.getD (h.length - 1) default)).length).length = h.length := by
      rw [rlen, hblen]
    simp only [List.length_take, hrl]
    omega

theorem heapInv_root_le (h : List puzzle) (hinv : heapInv h) (q : puzzle) (hq : q ∈ h) :
    (h.getD 0 default).f ≤ q.f := by
  have key : ∀ i, i < h.length → (h.getD 0 default).f ≤ (h.getD i default).f := by
    intro i
    induction i using Nat.strong_induction_on with
    | _ i ih =>
      intro hi
      rcases Nat.eq_zero_or_pos i with rfl | hi0
      · exact le_refl _
      · have hpi : parentIdx i < i := parentIdx_lt hi0
        exact le_trans (ih (parentIdx i) hpi (by omega)) (hinv i hi0 hi)
  obtain ⟨i, hi, rfl⟩ := List.mem_iff_getElem.1 hq
  rw [← getD_eq_getElem _ _ hi]
  exact key i hi

theorem reachablePQ_heapInv {h : List puzzle} (hr : ReachablePQ h) : heapInv h := by
  induction hr with
  | nil => intro i hi0 hlen; simp at hlen
  | push h p _ ih => exact push_pq_heapInv h p ih
  | pop h t h2 _ hpop ih =>
    have hne : h ≠ [] := by
      intro e
      subst e
      simp [pop_pq] at hpop
    obtain ⟨h2', he, hinv2, _, _⟩ := pop_pq_spec h ih hne
    rw [he] at hpop
    simp only [Option.some.injEq, Prod.mk.injEq] at hpop
    rw [← hpop.2]
    exact hinv2

/-! ### The open-set contract (claim C5) -/

/-- Claim C5 as stated is false: with a push interleaved between two
pops, the popped `f` values can decrease (here 5 then 3), so successive
pops over an arbitrary operation sequence need not be non-decreasing. -/
theorem pq_interleaved_pops_can_decrease :
    runOps [some (puzzle.child (puzzle.root goal_board) goal_board .UP 1 5), none,
        some (puzzle.child (puzzle.root goal_board) goal_board .UP 1 3), none] [] =
      some ([], [5, 3]) ∧ ¬ (5 : Nat) ≤ 3 := by
  exact ⟨by decide, by decide⟩

/-- Claim C5 (amended): on every queue reachable from a fresh empty
queue by pushes and pops, `pop_pq` returns a node whose `f` is smallest
among the nodes currently stored (so pops that are not separated by a
push yield non-decreasing `f` values); the remaining queue holds exactly
the other nodes and is itself reachable. -/
theorem pq_pop_returns_min (h : List puzzle) (hr : ReachablePQ h) (hne : h ≠ []) :
    ∃ t h2, pop_pq h = some (t, h2) ∧ t ∈ h ∧ (∀ q ∈ h, t.f ≤ q.f) ∧
      List.Perm (t :: h2) h ∧ ReachablePQ h2 ∧
      (∀ t2 h3, pop_pq h2 = some (t2, h3) → t.f ≤ t2.f) := by
  have hinv := reachablePQ_heapInv hr
  obtain ⟨h2, he, hinv2, hperm, hlen⟩ := pop_pq_spec h hinv hne
  refine ⟨_, h2, he, getD_mem h 0 (List.length_pos.2 hne),
    fun q hq => heapInv_root_le h hinv q hq, hperm, .pop h _ h2 hr he, ?_⟩
  intro t2 h3 he2
  have hne2 : h2 ≠ [] := by
    intro e
    subst e
    simp [pop_pq] at he2
  obtain ⟨h3', he2', _, _, _⟩ := pop_pq_spec h2 hinv2 hne2
  rw [he2'] at he2
  simp only [Option.some.injEq, Prod.mk.injEq] at he2
  have ht2 : t2 = h2.getD 0 default := he2.1.symm
  subst ht2
  have hmem : h2.getD 0 default ∈ h :=
    hperm.subset (List.mem_cons_of_mem _ (getD_mem h2 0 (List.length_pos.2 hne2)))
  exact heapInv_root_le h hinv _ hmem

/-- Witness for `pq_pop_returns_min`: a queue holding one pushed root
node pops that node. -/
theorem pq_pop_returns_min_witness :
    ∃ t h2, pop_pq (push_pq [] (puzzle.root goal_board)) = some (t, h2) ∧
      t ∈ push_pq [] (puzzle.root goal_board) ∧
      (∀ q ∈ push_pq [] (puzzle.root goal_board), t.f ≤ q.f) ∧
      List.Perm (t :: h2) (push_pq [] (puzzle.root goal_board)) ∧ ReachablePQ h2 ∧
      (∀ t2 h3, pop_pq h2 = some (t2, h3) → t.f ≤ t2.f) :=
  pq_pop_returns_min (push_pq [] (puzzle.root goal_board))
    (ReachablePQ.push [] (puzzle.root goal_board) ReachablePQ.nil) (by decide)

/-! ### Primality of `is_prime` and `next_prime` -/

theorem is_prime_iff (n : Nat) : is_prime n = true ↔ Nat.Prime n := by
  rw [Nat.prime_def_le_sqrt]
  unfold is_prime
  simp only [Bool.and_eq_true, List.all_eq_true, List.mem_range'_1, decide_eq_true_eq,
    Bool.or_eq_true, bne_iff_ne]
  constructor
  · rintro ⟨hall, h1⟩
    refine ⟨h1, fun m hm2 hmsqrt => ?_⟩
    have hmm : m * m ≤ n := by
      have hx := Nat.le_sqrt'.mp hmsqrt
      rwa [pow_two] at hx
    intro hdvd
    have hmn : m < 2 + (n - 1) := by
      have := Nat.le_of_dvd (by omega) hdvd
      omega
    exact absurd (Nat.mod_eq_zero_of_dvd hdvd) (by
      have := hall m ⟨hm2, hmn⟩
      rcases this with hlt | hne
      · omega
      · exact fun e => hne e)
  · rintro ⟨h2, hnd⟩
    refine ⟨fun m hm => ?_, by omega⟩
    obtain ⟨hm2, hmlt⟩ := hm
    by_cases hsq : n < m * m
    · exact Or.inl hsq
    · right
      intro he
      have hdvd : m ∣ n := Nat.dvd_of_mod_eq_zero he
      have : m ≤ Nat.sqrt n := by
        rw [Nat.le_sqrt']
        rw [pow_two]
        omega
      exact hnd m hm2 this hdvd

theorem next_prime_aux_spec : ∀ (fuel start : Nat),
    (∃ p, start ≤ p ∧ p < start + fuel ∧ is_prime p = true) →
    ∃ p, next_prime_aux start fuel = some p ∧ start ≤ p ∧ is_prime p = true ∧
      ∀ q, start ≤ q → q < p → is_prime q = false := by
  intro fuel
  induction fuel with
  | zero =>
    intro start h
    obtain ⟨p, h1, h2, _⟩ := h
    omega
  | succ m ih =>
    intro start h
    rw [next_prime_aux]
    split
    · next hp =>
      exact ⟨start, rfl, le_refl _, hp, fun q h1 h2 => by omega⟩
    · next hp =>
      obtain ⟨p, h1, h2, h3⟩ := h
      have hps : p ≠ start := fun e => by rw [e] at h3; exact hp h3
      obtain ⟨p2, e1, e2, e3, e4⟩ := ih (start + 1) ⟨p, by omega, by omega, h3⟩
      refine ⟨p2, e1, by omega, e3, fun q hq1 hq2 => ?_⟩
      rcases Nat.eq_or_lt_of_le hq1 with rfl | hgt
      · exact Bool.eq_false_iff.mpr hp
      · exact e4 q hgt hq2

theorem next_prime_spec (n : Nat) :
    Nat.Prime (next_prime n) ∧ n ≤ next_prime n ∧
      ∀ q, n ≤ q → q < next_prime n → ¬ Nat.Prime q := by
  have hex : ∃ p, n ≤ p ∧ p < n + (n + 3) ∧ is_prime p = true := by
    rcases Nat.eq_zero_or_pos n with rfl | hn
    · exact ⟨2, by omega, by omega, by decide⟩
    · by_cases hp : is_prime n = true
      · exact ⟨n, le_refl n, by omega, hp⟩
      · obtain ⟨p, hp1, hp2, hp3⟩ := Nat.bertrand n (by omega)
        exact ⟨p, by omega, by omega, (is_prime_iff p).2 hp1⟩
  obtain ⟨p, e1, e2, e3, e4⟩ := next_prime_aux_spec (n + 3) n hex
  unfold next_prime
  rw [e1]
  simp only [Option.getD_some]
  refine ⟨(is_prime_iff p).1 e3, e2, fun q h1 h2 hq => ?_⟩
  have hx := (is_prime_iff q).2 hq
  rw [e4 q h1 h2] at hx
  exact Bool.false_ne_true hx

/-! ### Hash table: probing and slot bookkeeping -/

theorem getD_any_eq_getElem {α : Type} (l : List α) (i : Nat) (d : α)
    (h : i < l.length) : l.getD i d = l[i] := by
  simp [List.getD_eq_getElem?_getD, List.getElem?_eq_getElem h]

theorem getD_one_eq_getD_zero (t : List Nat) (p : Nat) (h : p < t.length) :
    t.getD p 1 = t.getD p 0 := by
  rw [getD_any_eq_getElem t p 1 h, getD_any_eq_getElem t p 0 h]

theorem getD_any_set_self {α : Type} (l : List α) (i : Nat) (x d : α)
    (h : i < l.length) : (l.set i x).getD i d = x := by
  rw [getD_any_eq_getElem _ _ _ (by simpa using h)]
  simp [List.getElem_set, h]

theorem getD_any_set_ne {α : Type} (l : List α) (i j : Nat) (x d : α)
    (hne : i ≠ j) : (l.set i x).getD j d = l.getD j d := by
  by_cases hj : j < l.length
  · rw [getD_any_eq_getElem _ _ _ (by simpa using hj), getD_any_eq_getElem _ _ _ hj]
    simp [List.getElem_set, hne]
  · have h1 : (l.set i x)[j]? = none := List.getElem?_eq_none (by simp; omega)
    have h2 : l[j]? = none := List.getElem?_eq_none (by omega)
    rw [List.getD_eq_getElem?_getD, List.getD_eq_getElem?_getD, h1, h2]

theorem set_getElem_self_list {α : Type} (l : List α) (i : Nat) (h : i < l.length) :
    l.set i l[i] = l := by
  apply List.ext_getElem
  · simp
  · intro n h1 h2
    rw [List.getElem_set]
    split <;> simp_all

theorem occupancy_le_length (t : List Nat) : occupancy t ≤ t.length :=
  List.length_filter_le _ t

theorem exists_zero_slot (t : List Nat) (h : occupancy t < t.length) :
    ∃ p, p < t.length ∧ t.getD p 0 = 0 := by
  induction t with
  | nil => simp at h
  | cons x s ih =>
    by_cases hx : x = 0
    · exact ⟨0, by simp, by simp [hx]⟩
    · have hxb : (x != 0) = true := by simpa using hx
      have hocc : occupancy (x :: s) = occupancy s + 1 := by
        simp [occupancy, List.filter, hxb]
      rw [hocc] at h
      obtain ⟨p, hp1, hp2⟩ := ih (by simpa using h)
      exact ⟨p + 1, by simpa using hp1, by simpa using hp2⟩

theorem occupancy_set_le (t : List Nat) : ∀ (p k : Nat),
    occupancy (t.set p k) ≤ occupancy t + 1 := by
  induction t with
  | nil => intro p k; simp [occupancy]
  | cons x s ih =>
    intro p k
    cases p with
    | zero =>
      rcases Bool.eq_false_or_eq_true (k != 0) with hk | hk <;>
        rcases Bool.eq_false_or_eq_true (x != 0) with hx | hx <;>
          simp [occupancy, List.filter, List.set, hx, hk] <;> omega
    | succ q =>
      have hq := ih q k
      rcases Bool.eq_false_or_eq_true (x != 0) with hx | hx <;>
        simp [occupancy, List.filter, List.set, hx] at hq ⊢ <;> omega

theorem exists_probe_hit (len key p0 : Nat) (hlen : 0 < len) (hp0 : p0 < len) :
    ∃ j, j < len ∧ probe len key j = p0 := by
  have hr : key % len < len := Nat.mod_lt key hlen
  rcases le_or_lt (key % len) p0 with hle | hlt
  · refine ⟨p0 - key % len, by omega, ?_⟩
    unfold probe
    rw [Nat.add_mod, Nat.mod_eq_of_lt (show p0 - key % len < len by omega)]
    have he : key % len + (p0 - key % len) = p0 := by omega
    rw [he, Nat.mod_eq_of_lt hp0]
  · refine ⟨len + p0 - key % len, by omega, ?_⟩
    unfold probe
    rw [Nat.add_mod, Nat.mod_eq_of_lt (show len + p0 - key % len < len by omega)]
    have he : key % len + (len + p0 - key % len) = len + p0 := by omega
    rw [he, Nat.add_mod_left, Nat.mod_eq_of_lt hp0]

theorem probe_lt (len key i : Nat) (hlen : 0 < len) : probe len key i < len :=
  Nat.mod_lt _ hlen

theorem probe_ht_aux_spec (t : List Nat) (key : Nat) (hlen : 0 < t.length) :
    ∀ (fuel i : Nat),
    (∃ j, i ≤ j ∧ j < i + fuel ∧ t.getD (probe t.length key j) 0 = 0) →
    ∃ j, i ≤ j ∧ t.getD (probe t.length key j) 0 = 0 ∧
      (∀ j2, i ≤ j2 → j2 < j → t.getD (probe t.length key j2) 0 ≠ 0) ∧
      probe_ht_aux t key i fuel = some (t.set (probe t.length key j) key) := by
  intro fuel
  induction fuel with
  | zero =>
    intro i h
    obtain ⟨j, h1, h2, _⟩ := h
    omega
  | succ m ih =>
    intro i h
    rw [probe_ht_aux]
    rw [getD_one_eq_getD_zero t _ (probe_lt _ _ _ hlen)]
    split
    · next hz =>
      exact ⟨i, le_refl i, hz, fun j2 a b => by omega, rfl⟩
    · next hz =>
      obtain ⟨j, h1, h2, h3⟩ := h
      have hji : j ≠ i := fun e => hz (e ▸ h3)
      obtain ⟨j2, e1, e2, e3, e4⟩ := ih (i + 1) ⟨j, by omega, by omega, h3⟩
      refine ⟨j2, by omega, e2, fun j3 a b => ?_, e4⟩
      rcases Nat.eq_or_lt_of_le a with rfl | hgt
      · exact hz
      · exact e3 j3 hgt b

theorem probe_ht_spec (t : List Nat) (key : Nat) (hlen : 0 < t.length)
    (hocc : occupancy t < t.length) :
    ∃ j, j < t.length ∧ t.getD (probe t.length key j) 0 = 0 ∧
      (∀ j2, j2 < j → t.getD (probe t.length key j2) 0 ≠ 0) ∧
      probe_ht t key = some (t.set (probe t.length key j) key) := by
  obtain ⟨p0, hp0, hz⟩ := exists_zero_slot t hocc
  obtain ⟨j0, hj0, hhit⟩ := exists_probe_hit t.length key p0 hlen hp0
  obtain ⟨j, e1, e2, e3, e4⟩ := probe_ht_aux_spec t key hlen t.length 0
    ⟨j0, by omega, by omega, by rw [hhit]; exact hz⟩
  have hjle : j ≤ j0 := by
    by_contra hgt
    exact e3 j0 (by omega) (by omega) (by rw [hhit]; exact hz)
  exact ⟨j, by omega, e2, fun j2 hj2 => e3 j2 (by omega) hj2, e4⟩

theorem chainWF_insert (t : List Nat) (key j : Nat) (hlen : 0 < t.length)
    (hkey : key ≠ 0) (hwf : chainWF t) (hjlen : j < t.length)
    (hz : t.getD (probe t.length key j) 0 = 0)
    (hchain : ∀ j2, j2 < j → t.getD (probe t.length key j2) 0 ≠ 0) :
    chainWF (t.set (probe t.length key j) key) := by
  intro q hq hnz
  rw [List.length_set] at hq
  by_cases hqp : q = probe t.length key j
  · subst hqp
    rw [getD_any_set_self t _ key 0 (probe_lt _ _ _ hlen)]
    refine ⟨j, by simpa using hjlen, by simp, fun j2 hj2 => ?_⟩
    by_cases hpp : probe t.length key j2 = probe t.length key j
    · rw [List.length_set, hpp, getD_any_set_self t _ key 0 (probe_lt _ _ _ hlen)]
      exact hkey
    · rw [List.length_set, getD_any_set_ne t _ _ key 0 (fun e => hpp e.symm)]
      exact hchain j2 hj2
  · rw [getD_any_set_ne t _ q key 0 (fun e => hqp e.symm)] at hnz ⊢
    obtain ⟨i, hi, hpe, hch⟩ := hwf q hq hnz
    refine ⟨i, by simpa using hi, by simpa using hpe, fun j2 hj2 => ?_⟩
    by_cases hpp : probe t.length (t.getD q 0) j2 = probe t.length key j
    · rw [List.length_set, hpp, getD_any_set_self t _ key 0 (probe_lt _ _ _ hlen)]
      exact hkey
    · rw [List.length_set, getD_any_set_ne t _ _ key 0 (fun e => hpp e.symm)]
      exact hch j2 hj2

theorem mem_table_iff_getD (t : List Nat) (k : Nat) :
    k ∈ t ↔ ∃ q, q < t.length ∧ t.getD q 0 = k := by
  rw [List.mem_iff_getElem]
  constructor
  · rintro ⟨q, hq, rfl⟩
    exact ⟨q, hq, getD_any_eq_getElem t q 0 hq⟩
  · rintro ⟨q, hq, he⟩
    exact ⟨q, hq, by rw [← getD_any_eq_getElem t q 0 hq]; exact he⟩

theorem mem_set_iff (t : List Nat) (p key k : Nat) (hp : p < t.length)
    (hz : t.getD p 0 = 0) (hk : k ≠ 0) :
    k ∈ t.set p key ↔ k = key ∨ k ∈ t := by
  constructor
  · intro hm
    rcases List.mem_or_eq_of_mem_set hm with hm2 | rfl
    · exact Or.inr hm2
    · exact Or.inl rfl
  · rintro (rfl | hm)
    · rw [mem_table_iff_getD]
      exact ⟨p, by simpa using hp, getD_any_set_self t p k 0 hp⟩
    · rw [mem_table_iff_getD] at hm ⊢
      obtain ⟨q, hq, he⟩ := hm
      have hqp : q ≠ p := by
        intro e
        rw [e, hz] at he
        exact hk he.symm
      exact ⟨q, by simpa using hq, by
        rw [getD_any_set_ne t p q key 0 (fun e => hqp e.symm)]; exact he⟩

/-- One probe-insert step: table shape, chains, occupancy and the key
set all evolve as expected. -/
theorem probe_ht_full_spec (t : List Nat) (key : Nat) (hlen : 0 < t.length)
    (hocc : occupancy t < t.length) (hwf : chainWF t) :
    ∃ t2, probe_ht t key = some t2 ∧ t2.length = t.length ∧ chainWF t2 ∧
      occupancy t2 ≤ occupancy t + 1 ∧
      (∀ k, k ≠ 0 → (k ∈ t2 ↔ k = key ∨ k ∈ t)) := by
  obtain ⟨j, hjlen, hz, hch, he⟩ := probe_ht_spec t key hlen hocc
  by_cases hkey : key = 0
  · subst hkey
    have hgen : ∀ p, (hp : p < t.length) → t.get ⟨p, hp⟩ = 0 → t.set p 0 = t := by
      intro p hp hzz
      conv_lhs => rw [← hzz]
      have := set_getElem_self_list t p hp
      simpa using this
    have hid : t.set (probe t.length 0 j) 0 = t := by
      apply hgen _ (probe_lt t.length 0 j hlen)
      rw [List.get_eq_getElem, ← getD_any_eq_getElem t _ 0 (probe_lt t.length 0 j hlen)]
      exact hz
    rw [hid] at he
    refine ⟨t, he, rfl, hwf, by omega, fun k hk => ?_⟩
    constructor
    · exact Or.inr
    · rintro (rfl | hm)
      · exact absurd rfl hk
      · exact hm
  · refine ⟨_, he, by simp, chainWF_insert t key j hlen hkey hwf hjlen hz hch,
      occupancy_set_le t _ key, fun k hk => mem_set_iff t _ key k
        (probe_lt _ _ _ hlen) hz hk⟩

/-- The re-insertion fold of `rehash`. -/
theorem rehash_fold_spec : ∀ (ks : List Nat) (acc : List Nat),
    0 < acc.length → chainWF acc → occupancy acc + occupancy ks < acc.length →
    ∃ t2, List.foldl
        (fun acc2 k => if k ≠ 0 then acc2.bind (fun t => probe_ht t k) else acc2)
        (some acc) ks = some t2 ∧
      t2.length = acc.length ∧ chainWF t2 ∧
      occupancy t2 ≤ occupancy acc + occupancy ks ∧
      (∀ k, k ≠ 0 → (k ∈ t2 ↔ k ∈ ks ∨ k ∈ acc)) := by
  intro ks
  induction ks with
  | nil =>
    intro acc h1 h2 h3
    exact ⟨acc, rfl, rfl, h2, by simp [occupancy], fun k hk => by simp⟩
  | cons x ks ih =>
    intro acc h1 h2 h3
    by_cases hx : x = 0
    · subst hx
      have hocc : occupancy (0 :: ks) = occupancy ks := by
        simp [occupancy, List.filter]
      rw [hocc] at h3
      obtain ⟨t2, e1, e2, e3, e4, e5⟩ := ih acc h1 h2 h3
      refine ⟨t2, ?_, e2, e3, e4, fun k hk => ?_⟩
      · simpa using e1
      · rw [e5 k hk]
        simp only [List.mem_cons]
        constructor
        · rintro (h | h)
          · exact Or.inl (Or.inr h)
          · exact Or.inr h
        · rintro ((h | h) | h)
          · exact absurd h hk
          · exact Or.inl h
          · exact Or.inr h
    · have hocc : occupancy (x :: ks) = occupancy ks + 1 := by
        have hxb : (x != 0) = true := by simpa using hx
        simp [occupancy, List.filter, hxb]
      rw [hocc] at h3
      obtain ⟨t1, f1, f2, f3, f4, f5⟩ := probe_ht_full_spec acc x h1 (by omega) h2
      obtain ⟨t2, e1, e2, e3, e4, e5⟩ := ih t1 (by omega) f3 (by omega)
      refine ⟨t2, ?_, by omega, e3, by omega, fun k hk => ?_⟩
      · simp only [List.foldl_cons, if_pos hx, Option.some_bind]
        rw [f1]
        exact e1
      · rw [e5 k hk, f5 k hk]
        simp only [List.mem_cons]
        constructor
        · rintro (h | (rfl | h))
          · exact Or.inl (Or.inr h)
          · exact Or.inl (Or.inl rfl)
          · exact Or.inr h
        · rintro ((rfl | h) | h)
          · exact Or.inr (Or.inl rfl)
          · exact Or.inl h
          · exact Or.inr (Or.inr h)

theorem getD_replicate_zero (n p : Nat) : (List.replicate n 0).getD p 0 = 0 := by
  rw [List.getD_eq_getElem?_getD, List.getElem?_replicate]
  split <;> rfl

theorem chainWF_replicate_zero (n : Nat) : chainWF (List.replicate n 0) := by
  intro p hp hnz
  exact absurd (getD_replicate_zero n p) hnz

theorem occupancy_replicate_zero (n : Nat) : occupancy (List.replicate n 0) = 0 := by
  induction n with
  | zero => rfl
  | succ m ih => simpa [occupancy, List.replicate, List.filter] using ih

theorem mem_replicate_zero_iff (n k : Nat) (hk : k ≠ 0) :
    k ∈ List.replicate n 0 ↔ False := by
  simp [List.mem_replicate, hk]

theorem rehash_spec (ht : hash_table) (hwf : htWF ht) :
    ∃ ht2, rehash ht = some ht2 ∧
      ht2.capacity = next_prime (ht.capacity * 2) ∧
      ht2.capacity = ht2.table.length ∧ ht2.size = ht.size ∧
      Nat.Prime ht2.capacity ∧ ht.capacity * 2 ≤ ht2.capacity ∧
      occupancy ht2.table ≤ occupancy ht.table ∧ chainWF ht2.table ∧
      (∀ k, k ≠ 0 → (k ∈ ht2.table ↔ k ∈ ht.table)) := by
  obtain ⟨w1, w2, w3, w4, w5, w6⟩ := hwf
  obtain ⟨np1, np2, np3⟩ := next_prime_spec (ht.capacity * 2)
  have hcap : 0 < (List.replicate (next_prime (ht.capacity * 2)) 0).length := by
    simp only [List.length_replicate]
    omega
  have hoccr : occupancy (List.replicate (next_prime (ht.capacity * 2)) 0) +
      occupancy ht.table < (List.replicate (next_prime (ht.capacity * 2)) 0).length := by
    rw [occupancy_replicate_zero]
    simp only [List.length_replicate]
    have := occupancy_le_length ht.table
    omega
  obtain ⟨t2, e1, e2, e3, e4, e5⟩ := rehash_fold_spec ht.table
    (List.replicate (next_prime (ht.capacity * 2)) 0) hcap
    (chainWF_replicate_zero _) hoccr
  refine ⟨{ table := t2, size := ht.size, capacity := next_prime (ht.capacity * 2) },
    ?_, rfl, ?_, rfl, np1, np2, ?_, e3, fun k hk => ?_⟩
  · have hmap : rehash ht = (List.foldl
        (fun acc2 k => if k ≠ 0 then acc2.bind fun t => probe_ht t k else acc2)
        (some (List.replicate (next_prime (ht.capacity * 2)) 0)) ht.table).map
        (fun t => hash_table.mk t ht.size (next_prime (ht.capacity * 2))) := rfl
    rw [hmap, e1]
    rfl
  · rw [e2]
    simp
  · show occupancy t2 ≤ occupancy ht.table
    rw [occupancy_replicate_zero] at e4
    omega
  · show k ∈ t2 ↔ k ∈ ht.table
    rw [e5 k hk, mem_replicate_zero_iff _ k hk]
    simp

theorem insert_into_ht_spec (ht : hash_table) (key : Nat) (hwf : htWF ht) :
    ∃ ht2, insert_into_ht ht key = some ht2 ∧ htWF ht2 ∧ ht2.size = ht.size + 1 ∧
      (∀ k, k ≠ 0 → (k ∈ ht2.table ↔ k = key ∨ k ∈ ht.table)) ∧
      (10 * ht.size ≤ 7 * ht.capacity → ht2.capacity = ht.capacity) ∧
      (10 * ht.size > 7 * ht.capacity →
        ht2.capacity = next_prime (ht.capacity * 2)) := by
  obtain ⟨w1, w2, w3, w4, w5, w6⟩ := hwf
  by_cases hload : 10 * ht.size > 7 * ht.capacity
  · obtain ⟨ht1, r1, r2, r3, r4, r5, r6, r7, r8, r9⟩ := rehash_spec ht ⟨w1, w2, w3, w4, w5, w6⟩
    have hocc1 : occupancy ht1.table < ht1.table.length := by
      have hc1 := occupancy_le_length ht.table
      rw [← r3, r2]
      omega
    obtain ⟨t2, f1, f2, f3, f4, f5⟩ := probe_ht_full_spec ht1.table key
      (by rw [← r3, r2]; omega) hocc1 r8
    refine ⟨{ table := t2, size := ht1.size + 1, capacity := ht1.capacity },
      ?_, ⟨?_, r5, ?_, ?_, ?_, f3⟩, by rw [r4], fun k hk => ?_, by omega,
      fun _ => r2⟩
    · unfold insert_into_ht
      rw [if_pos hload, r1, Option.some_bind, f1]
      rfl
    · show ht1.capacity = t2.length
      rw [f2]
      exact r3
    · show 11 ≤ ht1.capacity
      omega
    · show occupancy t2 ≤ ht1.size + 1
      omega
    · show 10 * (ht1.size + 1) ≤ 7 * ht1.capacity + 10
      omega
    · show k ∈ t2 ↔ k = key ∨ k ∈ ht.table
      rw [f5 k hk, r9 k hk]
  · have hocc : occupancy ht.table < ht.table.length := by
      rw [← w1]
      omega
    obtain ⟨t2, f1, f2, f3, f4, f5⟩ := probe_ht_full_spec ht.table key
      (by rw [← w1]; omega) hocc w6
    refine ⟨{ table := t2, size := ht.size + 1, capacity := ht.capacity },
      ?_, ⟨?_, w2, w3, ?_, ?_, f3⟩, rfl, fun k hk => f5 k hk,
      fun _ => rfl, fun h => absurd h hload⟩
    · unfold insert_into_ht
      rw [if_neg hload, Option.some_bind, f1]
      rfl
    · show ht.capacity = t2.length
      rw [f2]
      exact w1
    · show occupancy t2 ≤ ht.size + 1
      omega
    · show 10 * (ht.size + 1) ≤ 7 * ht.capacity + 10
      omega

theorem new_ht_WF : htWF new_ht := by
  refine ⟨by decide, by decide, by decide, ?_, by decide, ?_⟩
  · rw [show new_ht.table = List.replicate (next_prime 10) 0 from rfl,
      occupancy_replicate_zero]
    exact Nat.zero_le _
  · rw [show new_ht.table = List.replicate (next_prime 10) 0 from rfl]
    exact chainWF_replicate_zero _

theorem buildHt_fold_spec : ∀ (ks : List Nat) (ht : hash_table), htWF ht →
    ∃ ht2, List.foldl (fun acc k => acc.bind (fun h => insert_into_ht h k))
        (some ht) ks = some ht2 ∧ htWF ht2 ∧
      (∀ k, k ≠ 0 → (k ∈ ht2.table ↔ k ∈ ks ∨ k ∈ ht.table)) := by
  intro ks
  induction ks with
  | nil =>
    intro ht hwf
    exact ⟨ht, rfl, hwf, fun k hk => by simp⟩
  | cons x ks ih =>
    intro ht hwf
    obtain ⟨ht1, e1, e2, _, e4, _, _⟩ := insert_into_ht_spec ht x hwf
    obtain ⟨ht2, f1, f2, f3⟩ := ih ht1 e2
    refine ⟨ht2, ?_, f2, fun k hk => ?_⟩
    · rw [List.foldl_cons, Option.some_bind, e1]
      exact f1
    · rw [f3 k hk, e4 k hk]
      simp only [List.mem_cons]
      constructor
      · rintro (h | (rfl | h))
        · exact Or.inl (Or.inr h)
        · exact Or.inl (Or.inl rfl)
        · exact Or.inr h
      · rintro ((rfl | h) | h)
        · exact Or.inr (Or.inl rfl)
        · exact Or.inl h
        · exact Or.inr (Or.inr h)

theorem buildHt_spec (ks : List Nat) :
    ∃ ht, buildHt ks = some ht ∧ htWF ht ∧
      (∀ k, k ≠ 0 → (k ∈ ht.table ↔ k ∈ ks)) := by
  obtain ⟨ht, e1, e2, e3⟩ := buildHt_fold_spec ks new_ht new_ht_WF
  refine ⟨ht, e1, e2, fun k hk => ?_⟩
  rw [e3 k hk]
  have hm : k ∈ new_ht.table ↔ False := by
    rw [show new_ht.table = List.replicate (next_prime 10) 0 from rfl]
    exact mem_replicate_zero_iff _ k hk
  rw [hm]
  simp

/-! ### `ht_has_key` lookup correctness -/

theorem ht_has_key_aux_false_spec (t : List Nat) (key : Nat) (hlen : 0 < t.length)
    (hnot : key ∉ t) : ∀ (fuel i : Nat),
    (∃ j, i ≤ j ∧ j < i + fuel ∧ t.getD (probe t.length key j) 0 = 0) →
    ht_has_key_aux t key i fuel = some false := by
  intro fuel
  induction fuel with
  | zero =>
    intro i h
    obtain ⟨j, h1, h2, _⟩ := h
    omega
  | succ m ih =>
    intro i h
    rw [ht_has_key_aux]
    rw [getD_one_eq_getD_zero t _ (probe_lt _ _ _ hlen)]
    split
    · rfl
    · next hz =>
      split
      · next hk =>
        exfalso
        apply hnot
        rw [mem_table_iff_getD]
        exact ⟨probe t.length key i, probe_lt _ _ _ hlen, hk⟩
      · obtain ⟨j, h1, h2, h3⟩ := h
        have hji : j ≠ i := fun e => hz (e ▸ h3)
        exact ih (i + 1) ⟨j, by omega, by omega, h3⟩

theorem ht_has_key_aux_true_spec (t : List Nat) (key : Nat) (hlen : 0 < t.length)
    (hkey : key ≠ 0) : ∀ (fuel i : Nat),
    (∃ iq, i ≤ iq ∧ iq < i + fuel ∧ t.getD (probe t.length key iq) 0 = key ∧
      (∀ j, j < iq → t.getD (probe t.length key j) 0 ≠ 0)) →
    ht_has_key_aux t key i fuel = some true := by
  intro fuel
  induction fuel with
  | zero =>
    intro i h
    obtain ⟨iq, h1, h2, _⟩ := h
    omega
  | succ m ih =>
    intro i h
    obtain ⟨iq, h1, h2, h3, h4⟩ := h
    rw [ht_has_key_aux]
    rw [getD_one_eq_getD_zero t _ (probe_lt _ _ _ hlen)]
    split
    · next hz =>
      exfalso
      have hii : i ≠ iq := by
        intro e
        rw [← e] at h3
        rw [hz] at h3
        exact hkey h3.symm
      exact h4 i (by omega) hz
    · next hz =>
      split
      · rfl
      · next hk =>
        have hii : i ≠ iq := by
          intro e
          rw [← e] at h3
          exact hk h3
        exact ih (i + 1) ⟨iq, by omega, by omega, h3, h4⟩

theorem ht_has_key_correct (ht : hash_table) (hwf : htWF ht) (key : Nat)
    (hkey : key ≠ 0) :
    ht_has_key ht key = some (decide (key ∈ ht.table)) := by
  obtain ⟨w1, w2, w3, w4, w5, w6⟩ := hwf
  have hlen : 0 < ht.table.length := by omega
  have hocc : occupancy ht.table < ht.table.length := by
    have := occupancy_le_length ht.table
    omega
  unfold ht_has_key
  by_cases hm : key ∈ ht.table
  · rw [decide_eq_true hm]
    rw [mem_table_iff_getD] at hm
    obtain ⟨q, hq, he⟩ := hm
    obtain ⟨iq, hiq, hpe, hch⟩ := w6 q hq (by rw [he]; exact hkey)
    rw [he] at hpe hch
    apply ht_has_key_aux_true_spec ht.table key hlen hkey ht.table.length 0
    exact ⟨iq, by omega, by omega, by rw [← hpe]; exact he, hch⟩
  · rw [decide_eq_false hm]
    obtain ⟨p0, hp0, hz⟩ := exists_zero_slot ht.table hocc
    obtain ⟨j0, hj0, hhit⟩ := exists_probe_hit ht.table.length key p0 hlen hp0
    apply ht_has_key_aux_false_spec ht.table key hlen hm ht.table.length 0
    exact ⟨j0, by omega, by omega, by rw [hhit]; exact hz⟩

/-! ### The closed-set contract (claims C6 and C7) -/

/-- Claim C6: building the closed set by any sequence of insertions
from a fresh table, a lookup of a nonzero key answers exactly whether
that key was ever inserted. -/
theorem closed_set_lookup_matches_inserts (ks : List Nat) (k : Nat) (hk : k ≠ 0) :
    ∃ ht, buildHt ks = some ht ∧ ht_has_key ht k = some (decide (k ∈ ks)) := by
  obtain ⟨ht, e1, e2, e3⟩ := buildHt_spec ks
  refine ⟨ht, e1, ?_⟩
  rw [ht_has_key_correct ht e2 k hk]
  congr 1
  exact decide_eq_decide.2 (e3 k hk)

/-- Witness for `closed_set_lookup_matches_inserts`: in a table holding
the keys 87654321 and 123, the key 123 is found and 124 is not. -/
theorem closed_set_lookup_matches_inserts_witness :
    (∃ ht, buildHt [87654321, 123] = some ht ∧
      ht_has_key ht 123 = some (decide (123 ∈ [87654321, 123]))) ∧
    (∃ ht, buildHt [87654321, 123] = some ht ∧
      ht_has_key ht 124 = some (decide (124 ∈ [87654321, 123]))) :=
  ⟨closed_set_lookup_matches_inserts [87654321, 123] 123 (by decide),
    closed_set_lookup_matches_inserts [87654321, 123] 124 (by decide)⟩

/-- Claim C7 as stated is false: the 8th insertion into the fresh
11-slot table leaves the load factor at 8/11 > 0.7 without rehashing —
`insert_into_ht` tests the load factor before the insertion
(7/11 ≤ 0.7), not what it would be after. -/
theorem ht_load_factor_checked_before_insert :
    buildHt [1, 2, 3, 4, 5, 6, 7, 8] =
      some ⟨[0, 1, 2, 3, 4, 5, 6, 7, 8, 0, 0], 8, 11⟩ ∧
    10 * 8 > 7 * 11 ∧ ¬ 10 * 7 > 7 * 11 := by
  refine ⟨by decide, by decide, by decide⟩

/-- Claim C7 (amended): on every reachable closed-set state the
capacity is prime; an insertion rehashes exactly when the load factor
before the insertion exceeds 0.7 (otherwise the capacity is unchanged);
and `rehash` sets the capacity to the least prime at or above twice the
old capacity while preserving exactly the set of nonzero stored keys. -/
theorem ht_capacity_prime_and_rehash_doubles (ks : List Nat) :
    ∃ ht, buildHt ks = some ht ∧ Nat.Prime ht.capacity ∧
      (∀ key, 10 * ht.size ≤ 7 * ht.capacity →
        ∃ ht2, insert_into_ht ht key = some ht2 ∧ ht2.capacity = ht.capacity) ∧
      (∀ key, 10 * ht.size > 7 * ht.capacity →
        ∃ ht2, insert_into_ht ht key = some ht2 ∧
          ht2.capacity = next_prime (ht.capacity * 2)) ∧
      (∃ ht3, rehash ht = some ht3 ∧
        ht3.capacity = next_prime (ht.capacity * 2) ∧ Nat.Prime ht3.capacity ∧
        ht.capacity * 2 ≤ ht3.capacity ∧
        (∀ q, ht.capacity * 2 ≤ q → q < ht3.capacity → ¬ Nat.Prime q) ∧
        (∀ k, k ≠ 0 → (k ∈ ht3.table ↔ k ∈ ht.table))) := by
  obtain ⟨ht, e1, e2, _⟩ := buildHt_spec ks
  refine ⟨ht, e1, e2.2.1, fun key hload => ?_, fun key hload => ?_, ?_⟩
  · obtain ⟨ht2, f1, _, _, _, f5, _⟩ := insert_into_ht_spec ht key e2
    exact ⟨ht2, f1, f5 hload⟩
  · obtain ⟨ht2, f1, _, _, _, _, f6⟩ := insert_into_ht_spec ht key e2
    exact ⟨ht2, f1, f6 hload⟩
  · obtain ⟨ht3, r1, r2, _, _, r5, r6, _, _, r9⟩ := rehash_spec ht e2
    refine ⟨ht3, r1, r2, r5, r6, fun q hq1 hq2 => ?_, r9⟩
    rw [r2] at hq2
    exact (next_prime_spec (ht.capacity * 2)).2.2 q hq1 hq2

/-- Witness for `ht_capacity_prime_and_rehash_doubles` at a concrete
insertion sequence. -/
theorem ht_capacity_prime_and_rehash_doubles_witness :
    ∃ ht, buildHt [5, 17] = some ht ∧ Nat.Prime ht.capacity ∧
      (∀ key, 10 * ht.size ≤ 7 * ht.capacity →
        ∃ ht2, insert_into_ht ht key = some ht2 ∧ ht2.capacity = ht.capacity) ∧
      (∀ key, 10 * ht.size > 7 * ht.capacity →
        ∃ ht2, insert_into_ht ht key = some ht2 ∧
          ht2.capacity = next_prime (ht.capacity * 2)) ∧
      (∃ ht3, rehash ht = some ht3 ∧
        ht3.capacity = next_prime (ht.capacity * 2) ∧ Nat.Prime ht3.capacity ∧
        ht.capacity * 2 ≤ ht3.capacity ∧
        (∀ q, ht.capacity * 2 ≤ q → q < ht3.capacity → ¬ Nat.Prime q) ∧
        (∀ k, k ≠ 0 → (k ∈ ht3.table ↔ k ∈ ht.table))) :=
  ht_capacity_prime_and_rehash_doubles [5, 17]

/-! ### Contents lemmas for the search loop -/

theorem siftDownAux_perm (fuel : Nat) : ∀ (h : List puzzle) (pos : Nat),
    pos < h.length → List.Perm (siftDownAux h pos fuel) h := by
  induction fuel with
  | zero => intro h pos _; exact .refl h
  | succ n ih =>
    intro h pos hlen
    rw [siftDownAux]
    split
    · exact .refl h
    · next hge =>
      split
      · obtain ⟨hm1, hm2⟩ := minChildIdx_lt h (CHILD_CNT * pos + 1) (by omega)
        have hperm := ih (heapSwap h pos (minChildIdx h (CHILD_CNT * pos + 1)))
          (minChildIdx h (CHILD_CNT * pos + 1)) (by rw [heapSwap_length]; omega)
        exact hperm.trans (heapSwap_perm h pos _ hlen hm2)
      · exact .refl h

theorem pop_pq_subset (h : List puzzle) (t : puzzle) (h2 : List puzzle)
    (he : pop_pq h = some (t, h2)) : t ∈ h ∧ ∀ q, q ∈ h2 → q ∈ h := by
  unfold pop_pq at he
  split at he
  · exact absurd he (by simp)
  · next hne =>
    simp only [Option.some.injEq, Prod.mk.injEq] at he
    obtain ⟨rfl, hh2⟩ := he
    have hn : 0 < h.length := by omega
    constructor
    · exact getD_mem h 0 hn
    · intro q hq
      rw [← hh2] at hq
      have hq2 : q ∈ siftDown (h.set 0 (h.getD (h.length - 1) default)) 0 :=
        List.mem_of_mem_take hq
      unfold siftDown at hq2
      have hperm := siftDownAux_perm
        ((h.set 0 (h.getD (h.length - 1) default)).length)
        (h.set 0 (h.getD (h.length - 1) default)) 0 (by simp; omega)
      have hq3 := hperm.subset hq2
      rcases List.mem_or_eq_of_mem_set hq3 with hq4 | rfl
      · exact hq4
      · exact getD_mem h (h.length - 1) (by omega)

theorem push_pq_mem (h : List puzzle) (p q : puzzle) (hq : q ∈ push_pq h p) :
    q = p ∨ q ∈ h := by
  have := (push_pq_perm h p).subset hq
  simpa using this

theorem expandLoop_mem (cur : puzzle) (closed : hash_table) :
    ∀ (idxs : List Nat) (opn res : List puzzle),
    expandLoop cur closed idxs opn = some res →
    ∀ q ∈ res, q ∈ opn ∨ ∃ i ∈ idxs, ∃ nb,
      move_board cur.board (NEIGHBOR_OFFSETS.getD i (0, 0)).1
        (NEIGHBOR_OFFSETS.getD i (0, 0)).2 = some nb ∧
      q = puzzle.child cur nb (NEIGHBOR_MOVES.getD i .NONE) (cur.g + 1)
        (cur.g + 1 + heuristic nb) := by
  intro idxs
  induction idxs with
  | nil =>
    intro opn res he q hq
    simp only [expandLoop, Option.some.injEq] at he
    rw [← he] at hq
    exact Or.inl hq
  | cons i rest ih =>
    intro opn res he q hq
    rw [expandLoop] at he
    split at he
    · rcases ih opn res he q hq with hin | ⟨j, hj, nb, hnb, hq2⟩
      · exact Or.inl hin
      · exact Or.inr ⟨j, List.mem_cons_of_mem i hj, nb, hnb, hq2⟩
    · next nb hmv =>
      split at he
      · exact absurd he (by simp)
      · rcases ih opn res he q hq with hin | ⟨j, hj, nb2, hnb2, hq2⟩
        · exact Or.inl hin
        · exact Or.inr ⟨j, List.mem_cons_of_mem i hj, nb2, hnb2, hq2⟩
      · rcases ih _ res he q hq with hin | ⟨j, hj, nb2, hnb2, hq2⟩
        · rcases push_pq_mem _ _ q hin with rfl | hino
          · exact Or.inr ⟨i, List.mem_cons_self i rest, nb, hmv, rfl⟩
          · exact Or.inl hino
        · exact Or.inr ⟨j, List.mem_cons_of_mem i hj, nb2, hnb2, hq2⟩

theorem solve_loop_success_WF (initial : Board) (goal_hash : Nat) :
    ∀ (fuel : Nat) (st : SearchState),
    (∀ p ∈ st.open_set, nodeWF initial p) →
    ∀ gp, solve_loop goal_hash st fuel = .success gp →
      nodeWF initial gp ∧ hash_board gp.board = goal_hash := by
  intro fuel
  induction fuel with
  | zero =>
    intro st _ gp hres
    exact absurd hres (by simp [solve_loop])
  | succ n ih =>
    intro st hWF gp hres
    rw [solve_loop] at hres
    rw [if_pos (by positivity : (0 : Int) ≤ (st.open_set.length : Int))] at hres
    cases hpop : pop_pq st.open_set with
    | none => rw [hpop] at hres; exact absurd hres (by simp)
    | some curopn =>
      obtain ⟨cur, opn⟩ := curopn
      rw [hpop] at hres
      simp only [] at hres
      obtain ⟨hcur, hopn⟩ := pop_pq_subset st.open_set cur opn hpop
      have hcurWF : nodeWF initial cur := hWF cur hcur
      cases hins : insert_into_ht st.closed_set (hash_board cur.board) with
      | none => rw [hins] at hres; exact absurd hres (by simp)
      | some closed =>
        rw [hins] at hres
        simp only [] at hres
        by_cases hgoal : hash_board cur.board = goal_hash
        · rw [if_pos hgoal] at hres
          simp only [SolveResult.success.injEq] at hres
          rw [← hres]
          exact ⟨hcurWF, hgoal⟩
        · rw [if_neg hgoal] at hres
          cases hexp : expandNeighbors cur closed opn with
          | none => rw [hexp] at hres; exact absurd hres (by simp)
          | some opn2 =>
            rw [hexp] at hres
            simp only [] at hres
            apply ih ⟨opn2, closed⟩ _ gp hres
            intro p hp
            unfold expandNeighbors at hexp
            rcases expandLoop_mem cur closed (List.range NEIGHBOR_CNT) opn opn2
                hexp p hp with hin | ⟨i, hi, nb, hnb, rfl⟩
            · exact hWF p (hopn p hin)
            · exact ⟨hcurWF, rfl, i, by simpa using hi, rfl, hnb⟩

/-! ### Replaying reconstructed paths (claim C9) -/

theorem offsets_correspond : ∀ i, i < NEIGHBOR_CNT →
    NEIGHBOR_OFFSETS.getD i (0, 0) = offsets_of (NEIGHBOR_MOVES.getD i .NONE) := by
  decide

theorem replayMoves_append (mv : Move) :
    ∀ (ms : List Move) (b : Board) (bs : List Board) (b2 : Board),
    replayMoves b ms = some bs →
    move_board (bs.getLastD b) (offsets_of mv).1 (offsets_of mv).2 = some b2 →
    replayMoves b (ms ++ [mv]) = some (bs ++ [b2]) := by
  intro ms
  induction ms with
  | nil =>
    intro b bs b2 h1 h2
    simp only [replayMoves, Option.some.injEq] at h1
    rw [← h1] at h2 ⊢
    simp only [List.nil_append, List.getLastD_nil] at h2 ⊢
    rw [replayMoves, h2]
    rfl
  | cons m ms ih =>
    intro b bs b2 h1 h2
    rw [replayMoves] at h1
    cases hmv : move_board b (offsets_of m).1 (offsets_of m).2 with
    | none => rw [hmv] at h1; exact absurd h1 (by simp)
    | some b3 =>
      rw [hmv] at h1
      simp only [Option.some_bind] at h1
      cases hrep : replayMoves b3 ms with
      | none => rw [hrep] at h1; exact absurd h1 (by simp)
      | some bs2 =>
        rw [hrep] at h1
        simp only [Option.map_some', Option.some.injEq] at h1
        rw [← h1] at h2 ⊢
        rw [List.getLastD_cons] at h2
        have := ih b3 bs2 b2 hrep h2
        rw [List.cons_append, replayMoves, hmv]
        simp only [Option.some_bind, this, Option.map_some']
        rfl

theorem chain_replay (initial : Board) : ∀ (p : puzzle), nodeWF initial p →
    ∃ rest, (chainOf p).reverse.map (fun q => (q.mv, q.board)) =
        (Move.NONE, initial) :: rest ∧
      replayMoves initial (rest.map Prod.fst) = some (rest.map Prod.snd) ∧
      (rest.map Prod.snd).getLastD initial = p.board := by
  intro p
  induction p with
  | root brd =>
    intro hwf
    rw [show brd = initial from hwf]
    exact ⟨[], rfl, rfl, rfl⟩
  | child parent brd mv g f ih =>
    rintro ⟨hwfp, hg, i, hi, hmv, hmove⟩
    obtain ⟨rest, e1, e2, e3⟩ := ih hwfp
    refine ⟨rest ++ [(mv, brd)], ?_, ?_, ?_⟩
    · rw [show chainOf (puzzle.child parent brd mv g f) =
          puzzle.child parent brd mv g f :: chainOf parent from rfl]
      rw [List.reverse_cons, List.map_append, e1]
      rfl
    · rw [List.map_append, List.map_append]
      apply replayMoves_append mv (rest.map Prod.fst) initial (rest.map Prod.snd) brd e2
      rw [e3]
      rw [offsets_correspond i hi] at hmove
      rw [← hmv] at hmove
      exact hmove
    · rw [List.map_append]
      simp only [List.map_cons, List.map_nil, List.getLastD_concat]
      rfl

theorem hash_board_explicit (a0 a1 a2 a3 a4 a5 a6 a7 a8 : Nat) :
    hash_board [a0, a1, a2, a3, a4, a5, a6, a7, a8] =
      a0 + 10 * a1 + 100 * a2 + 1000 * a3 + 10000 * a4 + 100000 * a5 +
        1000000 * a6 + 10000000 * a7 + 100000000 * a8 := by
  simp [hash_board, SIZE, List.range_succ]
  ring

theorem validBoard_length {b : Board} (h : validBoard b) : b.length = 9 := by
  simpa using h.length_eq

theorem validBoard_mem_lt {b : Board} (h : validBoard b) : ∀ x ∈ b, x < 9 := by
  intro x hx
  have := (h.mem_iff).1 hx
  simpa [List.mem_range] using this

theorem hash_board_inj (b1 b2 : Board) (h1 : validBoard b1) (h2 : validBoard b2)
    (he : hash_board b1 = hash_board b2) : b1 = b2 := by
  have l1 := validBoard_length h1
  have l2 := validBoard_length h2
  have m1 := validBoard_mem_lt h1
  have m2 := validBoard_mem_lt h2
  rcases b1 with _|⟨a0,_|⟨a1,_|⟨a2,_|⟨a3,_|⟨a4,_|⟨a5,_|⟨a6,_|⟨a7,_|⟨a8,_|⟨a9,t⟩⟩⟩⟩⟩⟩⟩⟩⟩⟩ <;>
    simp only [List.length] at l1 <;> try omega
  rcases b2 with _|⟨c0,_|⟨c1,_|⟨c2,_|⟨c3,_|⟨c4,_|⟨c5,_|⟨c6,_|⟨c7,_|⟨c8,_|⟨c9,s⟩⟩⟩⟩⟩⟩⟩⟩⟩⟩ <;>
    simp only [List.length] at l2 <;> try omega
  rw [hash_board_explicit, hash_board_explicit] at he
  have ha0 := m1 a0 (by simp); have ha1 := m1 a1 (by simp)
  have ha2 := m1 a2 (by simp); have ha3 := m1 a3 (by simp)
  have ha4 := m1 a4 (by simp); have ha5 := m1 a5 (by simp)
  have ha6 := m1 a6 (by simp); have ha7 := m1 a7 (by simp)
  have ha8 := m1 a8 (by simp)
  have hc0 := m2 c0 (by simp); have hc1 := m2 c1 (by simp)
  have hc2 := m2 c2 (by simp); have hc3 := m2 c3 (by simp)
  have hc4 := m2 c4 (by simp); have hc5 := m2 c5 (by simp)
  have hc6 := m2 c6 (by simp); have hc7 := m2 c7 (by simp)
  have hc8 := m2 c8 (by simp)
  simp only [List.cons.injEq, and_true]
  omega

/-- Claim C8: `hash_board` is injective on valid boards (permutations of
0..8), and every valid board's fingerprint is strictly positive and
fits a 32-bit signed integer, so `0` is a safe empty-slot sentinel. -/
theorem hash_board_injective_positive_bounded :
    (∀ b1 b2 : Board, validBoard b1 → validBoard b2 →
      hash_board b1 = hash_board b2 → b1 = b2) ∧
    (∀ b : Board, validBoard b → 0 < hash_board b ∧ hash_board b < 2 ^ 31) := by
  constructor
  · exact hash_board_inj
  · intro b hb
    have l1 := validBoard_length hb
    have m1 := validBoard_mem_lt hb
    have h8 : 8 ∈ b := (hb.mem_iff).2 (by simp)
    rcases b with _|⟨a0,_|⟨a1,_|⟨a2,_|⟨a3,_|⟨a4,_|⟨a5,_|⟨a6,_|⟨a7,_|⟨a8,_|⟨a9,t⟩⟩⟩⟩⟩⟩⟩⟩⟩⟩ <;>
      simp only [List.length] at l1 <;> try omega
    rw [hash_board_explicit]
    have ha0 := m1 a0 (by simp); have ha1 := m1 a1 (by simp)
    have ha2 := m1 a2 (by simp); have ha3 := m1 a3 (by simp)
    have ha4 := m1 a4 (by simp); have ha5 := m1 a5 (by simp)
    have ha6 := m1 a6 (by simp); have ha7 := m1 a7 (by simp)
    have ha8 := m1 a8 (by simp)
    simp only [List.mem_cons, List.not_mem_nil, or_false] at h8
    constructor
    · omega
    · norm_num
      omega

/-- Witness for `hash_board_injective_positive_bounded` at the canonical
goal board and the spec's example board. -/
theorem hash_board_injective_positive_bounded_witness :
    ([0, 1, 3, 4, 2, 5, 7, 8, 6] : Board) = [0, 1, 3, 4, 2, 5, 7, 8, 6] ∧
      0 < hash_board goal_board ∧ hash_board goal_board < 2 ^ 31 :=
  ⟨hash_board_injective_positive_bounded.1 [0, 1, 3, 4, 2, 5, 7, 8, 6]
      [0, 1, 3, 4, 2, 5, 7, 8, 6] (by decide) (by decide) rfl,
    hash_board_injective_positive_bounded.2 goal_board (by decide)⟩

/-! ### The heuristic (claim C2) -/

/-- Claim C2 (refuted): at the canonical goal board — a valid board —
the code's `heuristic` returns 40, while the spec's Manhattan-distance
sum is 0.  The division by `SIZE = 9` instead of `ROWS = 3` at lines
386–387 makes the code's value differ from the spec's on the goal
itself, so `heuristic(board) = 0 iff board = goal` also fails. -/
theorem heuristic_disagrees_with_manhattan_spec_at_goal :
    heuristic goal_board = 40 ∧ heuristic_spec goal_board = 0 ∧
      validBoard goal_board ∧ heuristic goal_board ≠ heuristic_spec goal_board := by
  refine ⟨by decide, by decide, by decide, by decide⟩

/-! ### The solver loop guard (claim C3) -/

/-- Claim C3 (refuted): the `while (open_set->size >= 0)` guard of
`solve` is satisfied even by an empty open set, so on exhaustion the
loop calls `pop_pq` on the empty queue and dies in its fatal branch
(`exit(1)`), rather than terminating in an EXHAUSTED outcome; moreover
no run of the loop ever takes the normal `while`-exit path. -/
theorem solve_loop_exhaustion_hits_fatal_pop (goal_hash : Nat) (st : SearchState)
    (fuel : Nat) :
    (st.open_set = [] → 1 ≤ fuel → solve_loop goal_hash st fuel = .fatalEmptyPop) ∧
    (∀ st', solve_loop goal_hash st fuel ≠ .loopExited st') := by
  induction fuel generalizing st with
  | zero => exact ⟨fun _ h => absurd h (by omega), fun st' => by simp [solve_loop]⟩
  | succ n ih =>
    constructor
    · intro hemp _
      simp [solve_loop, hemp, pop_pq]
    · intro st'
      simp only [solve_loop]
      have hgeq : (0 : Int) ≤ (st.open_set.length : Int) := by positivity
      simp only [hgeq, if_true]
      match hp : pop_pq st.open_set with
      | none => simp
      | some (cur, opn) =>
        simp only []
        match hi : insert_into_ht st.closed_set (hash_board cur.board) with
        | none => simp
        | some closed =>
          simp only []
          split
          · simp
          · match he : expandNeighbors cur closed opn with
            | none => simp
            | some opn2 => simpa using (ih ⟨opn2, closed⟩).2 st'

/-- Witness for `solve_loop_exhaustion_hits_fatal_pop`: a state whose
open set is empty makes the very next iteration die in `pop_pq`. -/
theorem solve_loop_exhaustion_hits_fatal_pop_witness :
    solve_loop 0 ⟨[], new_ht⟩ 1 = .fatalEmptyPop :=
  (solve_loop_exhaustion_hits_fatal_pop 0 ⟨[], new_ht⟩ 1).1 rfl (by omega)

/-! ### The path buffer (claim C4) -/

/-- Claim C4 (refuted): `reconstruct_path` stores the chain in the
fixed 32-slot buffer `puzzle* path[LONGEST_SOL]`.  A goal node whose
ancestry has 33 nodes (`g = 32`) makes the collection loop execute
`path[32] = leaf_puz`, a write outside the buffer (modelled by `none`),
so the claim's "no fixed-capacity buffer bounds the path" fails. -/
theorem reconstruct_path_overflows_32 :
    (deepChain 32).g = 32 ∧ (chainOf (deepChain 32)).length = (deepChain 32).g + 1 ∧
      reconstruct_path (deepChain 32) = none := by
  refine ⟨by decide, by decide, by decide⟩

/-! ### Argument and input handling (claim C10) -/

/-- Claim C10 (partly refuted): no argument gives the diagnostic
non-zero exit, and fewer than 9 digits gives the parse-time fatal exit,
as claimed; but an unopenable file is never detected — `main` passes the
`NULL` stream straight to `fgetc` (undefined behaviour, no diagnostic,
no controlled exit) — and a file with more than 9 digits makes
`parse_board` write past the 9-byte board instead of keeping only the
first 9 digits. -/
theorem main_embed_argument_and_file_handling :
    main_embed [] none = .usageError ∧
    main_embed ["puzzle.txt"] none = .fopenNullUB ∧
    main_embed ["puzzle.txt"] (some "12345678".toList) = .parseTooFew ∧
    main_embed ["puzzle.txt"] (some "123456780".toList) =
      .runsSolve [1, 2, 3, 4, 5, 6, 7, 8, 0] ∧
    main_embed ["puzzle.txt"] (some "1234567800".toList) = .parseOverflow := by
  refine ⟨rfl, rfl, by decide, by decide, by decide⟩

/-! ### Replay round-trip (claim C9) -/

theorem move_board_valid (b : Board) (r c : Int) (b2 : Board)
    (hv : validBoard b) (hm : move_board b r c = some b2) : validBoard b2 := by
  simp only [move_board] at hm
  split at hm
  · exact absurd hm (by simp)
  · next hguard =>
    simp only [Option.some.injEq] at hm
    push_neg at hguard
    obtain ⟨g1, g2, g3, g4⟩ := hguard
    have hlen : b.length = 9 := validBoard_length hv
    have h0 : (0 : Nat) ∈ b := (hv.mem_iff).2 (by simp)
    have hzl : find_zero b < b.length := by
      unfold find_zero
      exact List.indexOf_lt_length.2 h0
    have hsw : ((find_zero b : Int) % (ROWS : Int) + c +
        (ROWS : Int) * ((find_zero b : Int) / (ROWS : Int) + r)).toNat < b.length := by
      rw [hlen]
      simp only [ROWS] at g1 g2 g3 g4 ⊢
      omega
    rw [← hm]
    unfold swapTiles
    rw [getD_any_eq_getElem _ _ _ hsw, getD_any_eq_getElem _ _ _ hzl]
    exact (set_set_perm b (find_zero b) _ hzl hsw).trans hv

theorem replayMoves_valid : ∀ (ms : List Move) (b : Board) (bs : List Board),
    validBoard b → replayMoves b ms = some bs → ∀ x ∈ bs, validBoard x := by
  intro ms
  induction ms with
  | nil =>
    intro b bs _ h1 x hx
    simp only [replayMoves, Option.some.injEq] at h1
    rw [← h1] at hx
    exact absurd hx (by simp)
  | cons m ms ih =>
    intro b bs hv h1 x hx
    rw [replayMoves] at h1
    cases hmv : move_board b (offsets_of m).1 (offsets_of m).2 with
    | none => rw [hmv] at h1; exact absurd h1 (by simp)
    | some b3 =>
      rw [hmv] at h1
      simp only [Option.some_bind] at h1
      cases hrep : replayMoves b3 ms with
      | none => rw [hrep] at h1; exact absurd h1 (by simp)
      | some bs2 =>
        rw [hrep] at h1
        simp only [Option.map_some', Option.some.injEq] at h1
        have hv3 : validBoard b3 := move_board_valid b _ _ b3 hv hmv
        rw [← h1] at hx
        rcases List.mem_cons.1 hx with rfl | hx2
        · exact hv3
        · exact ih b3 bs2 hv3 hrep x hx2

theorem getLastD_mem_or {α : Type} (l : List α) (d : α) :
    l.getLastD d ∈ l ∨ l.getLastD d = d := by
  induction l generalizing d with
  | nil => exact Or.inr rfl
  | cons x xs ih =>
    rw [List.getLastD_cons]
    rcases ih x with h | h
    · exact Or.inl (List.mem_cons_of_mem x h)
    · exact Or.inl (by rw [h]; exact List.mem_cons_self x xs)

/-- Claim C9: every success of the search round-trips.  The emitted
path starts with `(NONE, initial)`; replaying the moves of the
remaining entries from the initial board step by step via `move_board`
succeeds and produces exactly the boards of those entries, in order;
and the final board is the goal board. -/
theorem solve_path_roundtrip (initial goal_brd : Board) (fuel : Nat)
    (gp : puzzle) (ps : List (Move × Board))
    (hvi : validBoard initial) (hvg : validBoard goal_brd)
    (hsolve : solve initial goal_brd fuel = .success gp)
    (hrec : reconstruct_path gp = some ps) :
    ∃ rest, ps = (Move.NONE, initial) :: rest ∧
      replayMoves initial (rest.map Prod.fst) = some (rest.map Prod.snd) ∧
      (rest.map Prod.snd).getLastD initial = goal_brd := by
  have hWF0 : ∀ p ∈ push_pq [] (puzzle.root initial), nodeWF initial p := by
    intro p hp
    rcases push_pq_mem [] (puzzle.root initial) p hp with rfl | h
    · show initial = initial
      rfl
    · exact absurd h (by simp)
  unfold solve at hsolve
  obtain ⟨hwf, hhash⟩ := solve_loop_success_WF initial (hash_board goal_brd) fuel
    ⟨push_pq [] (puzzle.root initial), new_ht⟩ hWF0 gp hsolve
  obtain ⟨rest, e1, e2, e3⟩ := chain_replay initial gp hwf
  have hps : ps = (Move.NONE, initial) :: rest := by
    simp only [reconstruct_path] at hrec
    split at hrec
    · exact absurd hrec (by simp)
    · simp only [Option.some.injEq] at hrec
      rw [← hrec]
      exact e1
  refine ⟨rest, hps, e2, ?_⟩
  have hvlast : validBoard ((rest.map Prod.snd).getLastD initial) := by
    rcases getLastD_mem_or (rest.map Prod.snd) initial with h | h
    · exact replayMoves_valid (rest.map Prod.fst) initial (rest.map Prod.snd)
        hvi e2 _ h
    · rw [h]; exact hvi
  have : hash_board ((rest.map Prod.snd).getLastD initial) = hash_board goal_brd := by
    rw [e3, hhash]
  exact hash_board_inj _ _ hvlast hvg this

/-- Witness for `solve_path_roundtrip`: the already-solved instance whose
initial board is the goal board, solved in one loop iteration. -/
theorem solve_path_roundtrip_witness :
    ∃ rest, ([(Move.NONE, goal_board)] : List (Move × Board)) =
        (Move.NONE, goal_board) :: rest ∧
      replayMoves goal_board (rest.map Prod.fst) = some (rest.map Prod.snd) ∧
      (rest.map Prod.snd).getLastD goal_board = goal_board :=
  solve_path_roundtrip goal_board goal_board 1 (puzzle.root goal_board)
    [(Move.NONE, goal_board)] (by decide) (by decide) (by decide) (by decide)

end EightPuzzle
